import Mathlib

/-!
Shallow embedding of `src/solve.js`: arbitrary-base digit decoding,
exact fraction arithmetic on arbitrary-precision integers, Lagrange
interpolation at zero, the combination generator, and the robust
consensus reconstruction of `main`.  JavaScript `BigInt` is modelled by
`ℤ` (digit accumulators, which are never negative, by `ℕ`), thrown
exceptions by `Option.none`, and the `try/catch` around one subset's
interpolation by `Option` propagation in `subsetValue`.
-/

/-- Embeds `charToVal` (src/solve.js:3-8).  The source lowercases with
JS `toLowerCase()` — Unicode Default Case Conversion — then compares the
resulting *string* with `'0'..'9'` and `'a'..'z'` and reads
`charCodeAt(0)`.  A character is therefore accepted exactly when its
Unicode lowercase starts in one of those ranges: the ASCII digits
`0..9` (lowercase themselves, code 48..57), the ASCII letters `a..z`
(97..122) and `A..Z` (65..90, lowercase `a..z`), and the only two
non-ASCII code points whose lowercase reaches `a..z` — `U+212A` KELVIN
SIGN (lowercase `k`, so value `20`) and `U+0130` LATIN CAPITAL LETTER I
WITH DOT ABOVE (lowercase is the two-character string `"i\u0307"`,
which the lexicographic string comparisons accept between `'a'` and
`'z'`, and whose `charCodeAt(0)` is `i`, so value `18`; `U+0130` is the
only code point with a multi-character lowercase).  Every other code
point's lowercase starts outside both ranges, so both comparisons fail
and the source throws; we return `none` for the throw. -/
def charToVal (ch : Char) : Option ℕ :=
  if 48 ≤ ch.toNat ∧ ch.toNat ≤ 57 then some (ch.toNat - 48)
  else if 97 ≤ ch.toNat ∧ ch.toNat ≤ 122 then some (10 + (ch.toNat - 97))
  else if 65 ≤ ch.toNat ∧ ch.toNat ≤ 90 then some (10 + (ch.toNat - 65))
  else if ch.toNat = 0x212A then some 20
  else if ch.toNat = 0x130 then some 18
  else none

/-- The loop body of `decodeBaseToBigInt` (src/solve.js:13-17): look up
the digit value and fail when it is invalid or `v >= base`, otherwise
accumulate `acc*base + v`. -/
def decodeStep (base acc : ℕ) (ch : Char) : Option ℕ := do
  let v ← charToVal ch
  if base ≤ v then none else some (acc * base + v)

/-- Embeds `decodeBaseToBigInt` (src/solve.js:10-19): left-to-right fold
of `decodeStep` starting from `0`. -/
def decodeBaseToBigInt (str : List Char) (base : ℕ) : Option ℕ :=
  str.foldlM (decodeStep base) 0

/-- Embeds `gcdBig` (src/solve.js:23-28).  The JS Euclidean loop on
`absBig a`, `absBig b` computes exactly the gcd of the absolute values,
which is `Int.gcd`. -/
def gcdBig (a b : ℤ) : ℤ :=
  (Int.gcd a b : ℤ)

/-- Embeds `normalizeFrac` (src/solve.js:30-37).  JS `BigInt` division
truncates toward zero, hence `Int.tdiv`; the divisions here are exact, so
truncation never occurs. -/
def normalizeFrac (num den : ℤ) : Option (ℤ × ℤ) :=
  if den = 0 then none
  else if num = 0 then some (0, 1)
  else
    let num' := if den < 0 then -num else num
    let den' := if den < 0 then -den else den
    let g := gcdBig num' den'
    some (num'.tdiv g, den'.tdiv g)

/-- Embeds `addFrac` (src/solve.js:39-44). -/
def addFrac (a b : ℤ × ℤ) : Option (ℤ × ℤ) :=
  normalizeFrac (a.1 * b.2 + b.1 * a.2) (a.2 * b.2)

/-- Embeds `mulFrac` (src/solve.js:46-49). -/
def mulFrac (a b : ℤ × ℤ) : Option (ℤ × ℤ) :=
  normalizeFrac (a.1 * b.1) (a.2 * b.2)

/-- The inner loop body of `interpolateAtZero` (src/solve.js:62-69):
multiply the running basis fraction by `(-x_j)/(x_i - x_j)`, skipping
`j = i` (the JS `continue`). -/
def liStep (pts : List (ℤ × ℤ)) (xi : ℤ) (i : ℕ) (li : ℤ × ℤ) (j : ℕ) :
    Option (ℤ × ℤ) :=
  if i = j then some li
  else
    (normalizeFrac (-(pts.getD j (0, 0)).1) (xi - (pts.getD j (0, 0)).1)).bind
      (fun f => mulFrac li f)

/-- The outer loop body of `interpolateAtZero` (src/solve.js:57-74):
compute the Lagrange basis value `L_i(0)` by the inner loop, multiply by
`y_i` and add to the running sum. -/
def sumStep (pts : List (ℤ × ℤ)) (sum : ℤ × ℤ) (i : ℕ) : Option (ℤ × ℤ) := do
  let xi := (pts.getD i (0, 0)).1
  let yi := (pts.getD i (0, 0)).2
  let li ← (List.range pts.length).foldlM (liStep pts xi i) ((1 : ℤ), (1 : ℤ))
  let term ← mulFrac (yi, 1) li
  addFrac sum term

/-- Embeds `interpolateAtZero` (src/solve.js:52-81).  The two JS `for`
loops over `0 <= i, j < k` become monadic folds over `List.range k`; JS
`%` and `/` on `BigInt` truncate toward zero, hence `Int.tmod` /
`Int.tdiv`. -/
def interpolateAtZero (pts : List (ℤ × ℤ)) : Option ℤ := do
  let sum ← (List.range pts.length).foldlM (sumStep pts) ((0 : ℤ), (1 : ℤ))
  let p ← normalizeFrac sum.1 sum.2
  if p.1.tmod p.2 = 0 then some (p.1.tdiv p.2) else none

/-- Embeds the scan-and-advance step of the generator `combinations`
(src/solve.js:84-97) on the reversed index array.  Offset `j` from the
right corresponds to position `i = k-1-j`, whose maximal allowed value is
`last - (k-1-i) = m-1-j`; the comparison is in `ℤ` because JS computes
`last - (k-1-i)` in signed arithmetic (it is negative when `m = 0`).
On the first (rightmost) position that is not at its maximum the value is
incremented and all positions to its right are reset to consecutive
successors, exactly as the JS `while`/`for` pair does. -/
def advAux (m : ℕ) : ℕ → List ℕ → Option (ℕ × List ℕ)
  | _, [] => none
  | j, a :: rest =>
    if (a : ℤ) = (m : ℤ) - 1 - (j : ℤ) then
      match advAux m (j + 1) rest with
      | none => none
      | some (v, newRest) => some (v + 1, (v + 1) :: newRest)
    else
      some (a + 1, (a + 1) :: rest)

/-- One advance of the generator `combinations` (src/solve.js:89-96):
`none` when the scan runs past the leftmost index (the generator
returns). -/
def advance (m : ℕ) (idx : List ℕ) : Option (List ℕ) :=
  (advAux m 0 idx.reverse).map (fun p => p.2.reverse)

/-- The complete, terminating run of a step function from a state: the
generator yields `s`, then advances, until the advance fails.  The list
`L` is exactly the sequence of yielded states of `combinations`
(src/solve.js:84-97) when `next = advance m` and the start state is
`List.range k` (the JS initial `idx = [0,...,k-1]`). -/
inductive RunsTo {α : Type} (next : α → Option α) : α → List α → Prop
  | last (s : α) : next s = none → RunsTo next s [s]
  | step (s t : α) (L : List α) : next s = some t → RunsTo next t L →
      RunsTo next s (s :: L)

/-- The state of the generator `combinations(m, k)` after `n` advances
(`none` once the generator has returned). -/
def comboIter (m k : ℕ) : ℕ → Option (List ℕ)
  | 0 => some (List.range k)
  | n + 1 => (comboIter m k n).bind (advance m)

/-- The strictly increasing `k`-element index sequences over `0..m-1` in
lexicographic order: those starting with `0` (a shifted `(k-1)`-sequence
over `0..m-2`) first, then those with all entries positive (a shifted
`k`-sequence over `0..m-2`).  `combinations_enumeration` proves this is
exactly the sequence of yields of the JS generator when `k ≤ m`. -/
def combosList : ℕ → ℕ → List (List ℕ)
  | _, 0 => [[]]
  | 0, _ + 1 => []
  | m + 1, k + 1 =>
    (combosList m k).map (fun c => 0 :: c.map (· + 1)) ++
      (combosList m (k + 1)).map (List.map (· + 1))

/-- Embeds `combo.map(i => points[i])` followed by `interpolateAtZero`
inside the `try` of `main` (src/solve.js:140-147): reading `points[i]`
out of range yields JS `undefined` and the interpolation then throws, so
the whole subset computation fails; both failure modes are caught by the
`catch` and surface as `none` here. -/
def subsetValue (pts : List (ℤ × ℤ)) (combo : List ℕ) : Option ℤ :=
  (combo.mapM (fun i => pts.get? i)).bind interpolateAtZero

/-- One tally update of `main` (src/solve.js:148-153): the maps `cFreq`
and `cMembers` (keyed by the same values, in the same insertion order)
are merged into one insertion-ordered association list
`(value, count, memberIndices)`.  A new value is appended at the end,
matching JS `Map` insertion order. -/
def tallyAdd (t : List (ℤ × ℕ × Finset ℕ)) (c : ℤ) (combo : List ℕ) :
    List (ℤ × ℕ × Finset ℕ) :=
  match t with
  | [] => [(c, 1, combo.toFinset)]
  | e :: rest =>
    if e.1 = c then (c, e.2.1 + 1, e.2.2 ∪ combo.toFinset) :: rest
    else e :: tallyAdd rest c combo

/-- The tally loop of `main` (src/solve.js:139-154): subsets whose
interpolation throws are skipped and contribute nothing. -/
def buildTally (pts : List (ℤ × ℤ)) (combos : List (List ℕ)) :
    List (ℤ × ℕ × Finset ℕ) :=
  combos.foldl
    (fun t combo =>
      match subsetValue pts combo with
      | none => t
      | some c => tallyAdd t c combo)
    []

/-- The winner scan of `main` (src/solve.js:159-163): `bestC = null`,
`bestCount = -1`, replace only on strict improvement, iterating the tally
in insertion order. -/
def pickBest (t : List (ℤ × ℕ × Finset ℕ)) : Option ℤ × ℤ :=
  t.foldl
    (fun best e => if (e.2.1 : ℤ) > best.2 then (some e.1, (e.2.1 : ℤ)) else best)
    (none, -1)

/-- The robust reconstruction of `main` (src/solve.js:139-171), from the
list of enumerated subsets: build the tally, throw (`none`) if it is
empty, pick the most frequent value, and report as outliers the points
whose index in `0..m-1` is in no subset that produced the winner. -/
def reconstructAux (combos : List (List ℕ)) (pts : List (ℤ × ℤ)) (m : ℕ) :
    Option (ℤ × List (ℤ × ℤ)) :=
  let t := buildTally pts combos
  if t.isEmpty then none
  else
    match (pickBest t).1 with
    | none => none
    | some bestC =>
      let ok := (((t.find? (fun e => e.1 = bestC)).map (fun e => e.2.2)).getD ∅)
      some (bestC, ((List.range m).filter (fun i => ¬ i ∈ ok)).map
        (fun i => pts.getD i (0, 0)))

/-- Horner evaluation of a polynomial given by its coefficient list
`c = [c₀, c₁, ..., c_{k-1}]` (constant term first); used to state the
specification's "points on an integer-coefficient polynomial". -/
def evalPoly (c : List ℤ) (x : ℤ) : ℤ :=
  c.foldr (fun a acc => a + x * acc) 0

/-- The normalized-fraction invariant of the specification: strictly
positive denominator, `gcd(|num|, den) = 1` (`Int.gcd` is the gcd of the
absolute values), and canonical form `(0, 1)` for zero. -/
def InvFrac (p : ℤ × ℤ) : Prop :=
  0 < p.2 ∧ Int.gcd p.1 p.2 = 1 ∧ (p.1 = 0 → p = (0, 1))

instance : DecidablePred InvFrac := fun p => by
  unfold InvFrac; infer_instance

/-- The exact rational value of a fraction pair. -/
def fracVal (p : ℤ × ℤ) : ℚ :=
  (p.1 : ℚ) / (p.2 : ℚ)

/-- The rational polynomial with integer coefficient list
`c = [c₀, c₁, ..., c_{k-1}]` (constant term first), in Horner form;
the polynomial the specification's points lie on. -/
noncomputable def hornerQ (c : List ℤ) : Polynomial ℚ :=
  c.foldr (fun a q => Polynomial.C (a : ℚ) + Polynomial.X * q) 0

/-- The exact rational Lagrange value at `x = 0` of the points `pts`:
`Σᵢ yᵢ · Πⱼ≠ᵢ (-xⱼ)/(xᵢ-xⱼ)`, the quantity `interpolateAtZero` computes
with fraction arithmetic. -/
def rationalLagrange (pts : List (ℤ × ℤ)) : ℚ :=
  ∑ i ∈ Finset.range pts.length,
    ((pts.getD i (0, 0)).2 : ℚ) *
      ∏ j ∈ (Finset.range pts.length).erase i,
        (-((pts.getD j (0, 0)).1 : ℚ)) /
          (((pts.getD i (0, 0)).1 : ℚ) - ((pts.getD j (0, 0)).1 : ℚ))

/-! ### Fraction arithmetic: soundness and the normalization invariant -/

theorem invFrac_den_ne_zero {p : ℤ × ℤ} (h : InvFrac p) : p.2 ≠ 0 :=
  ne_of_gt h.1

theorem normalizeFrac_zero_den (n : ℤ) : normalizeFrac n 0 = none := rfl

theorem normalizeFrac_some {n d : ℤ} (hd : d ≠ 0) :
    ∃ p, normalizeFrac n d = some p ∧ InvFrac p ∧ fracVal p = (n : ℚ) / (d : ℚ) := by
  by_cases hn : n = 0
  · subst hn
    refine ⟨(0, 1), by simp [normalizeFrac, hd], ⟨one_pos, by simp, fun _ => rfl⟩, ?_⟩
    simp [fracVal]
  · set n1 := if d < 0 then -n else n with hn1
    set d1 := if d < 0 then -d else d with hd1
    have hn1ne : n1 ≠ 0 := by
      rw [hn1]; split <;> simpa using hn
    have hd1pos : 0 < d1 := by
      rw [hd1]; split <;> omega
    have hvq : (n1 : ℚ) / (d1 : ℚ) = (n : ℚ) / (d : ℚ) := by
      rw [hn1, hd1]
      split
      · push_cast; rw [neg_div_neg_eq]
      · rfl
    set g : ℤ := gcdBig n1 d1 with hg
    have hgg : g = (Int.gcd n1 d1 : ℤ) := rfl
    have hgpos : 0 < g := by
      rw [hgg]
      exact_mod_cast Int.gcd_pos_of_ne_zero_left d1 hn1ne
    have hdvdn : g ∣ n1 := hgg ▸ Int.gcd_dvd_left
    have hdvdd : g ∣ d1 := hgg ▸ Int.gcd_dvd_right
    have htd1 : n1.tdiv g = n1 / g := Int.tdiv_eq_ediv_of_dvd hdvdn
    have htd2 : d1.tdiv g = d1 / g := Int.tdiv_eq_ediv_of_dvd hdvdd
    have hmuln : g * (n1 / g) = n1 := Int.mul_ediv_cancel' hdvdn
    have hmuld : g * (d1 / g) = d1 := Int.mul_ediv_cancel' hdvdd
    have hdq : 0 < d1 / g := by nlinarith [hmuld]
    have hnq : n1 / g ≠ 0 := by
      intro h0
      rw [h0, mul_zero] at hmuln
      exact hn1ne hmuln.symm
    refine ⟨(n1.tdiv g, d1.tdiv g), ?_, ⟨?_, ?_, ?_⟩, ?_⟩
    · simp only [normalizeFrac, hd, if_neg, hn, ite_false]
    · simpa [htd2] using hdq
    · rw [htd1, htd2]
      have := @Int.gcd_div_gcd_div_gcd n1 d1 (Int.gcd_pos_of_ne_zero_left d1 hn1ne)
      simpa [hgg] using this
    · intro h0
      exact absurd (by simpa [htd1] using h0) hnq
    · rw [fracVal, htd1, htd2, ← hvq]
      have h1 : ((n1 / g : ℤ) : ℚ) * (g : ℚ) = (n1 : ℚ) := by
        rw [← Int.cast_mul, mul_comm, hmuln]
      have h2 : ((d1 / g : ℤ) : ℚ) * (g : ℚ) = (d1 : ℚ) := by
        rw [← Int.cast_mul, mul_comm, hmuld]
      have hd1q : ((d1 / g : ℤ) : ℚ) ≠ 0 := by
        exact_mod_cast ne_of_gt hdq
      have hd1q' : (d1 : ℚ) ≠ 0 := by
        exact_mod_cast ne_of_gt hd1pos
      rw [div_eq_div_iff hd1q hd1q']
      calc ((n1 / g : ℤ) : ℚ) * (d1 : ℚ)
          = ((n1 / g : ℤ) : ℚ) * (((d1 / g : ℤ) : ℚ) * (g : ℚ)) := by rw [h2]
        _ = (((n1 / g : ℤ) : ℚ) * (g : ℚ)) * ((d1 / g : ℤ) : ℚ) := by ring
        _ = (n1 : ℚ) * ((d1 / g : ℤ) : ℚ) := by rw [h1]

theorem normalizeFrac_eq_some {n d : ℤ} {p : ℤ × ℤ}
    (h : normalizeFrac n d = some p) :
    InvFrac p ∧ fracVal p = (n : ℚ) / (d : ℚ) ∧ d ≠ 0 := by
  by_cases hd : d = 0
  · subst hd; rw [normalizeFrac_zero_den] at h; cases h
  · obtain ⟨q, hq, hinv, hval⟩ := @normalizeFrac_some n d hd
    rw [hq] at h
    cases h
    exact ⟨hinv, hval, hd⟩

theorem addFrac_some {a b : ℤ × ℤ} (ha : a.2 ≠ 0) (hb : b.2 ≠ 0) :
    ∃ p, addFrac a b = some p ∧ InvFrac p ∧
      fracVal p = fracVal a + fracVal b := by
  have hden : a.2 * b.2 ≠ 0 := mul_ne_zero ha hb
  obtain ⟨p, hp, hinv, hval⟩ := @normalizeFrac_some (a.1 * b.2 + b.1 * a.2) (a.2 * b.2) hden
  refine ⟨p, hp, hinv, ?_⟩
  rw [hval, fracVal, fracVal]
  have ha' : (a.2 : ℚ) ≠ 0 := by exact_mod_cast ha
  have hb' : (b.2 : ℚ) ≠ 0 := by exact_mod_cast hb
  field_simp

theorem mulFrac_some {a b : ℤ × ℤ} (ha : a.2 ≠ 0) (hb : b.2 ≠ 0) :
    ∃ p, mulFrac a b = some p ∧ InvFrac p ∧
      fracVal p = fracVal a * fracVal b := by
  have hden : a.2 * b.2 ≠ 0 := mul_ne_zero ha hb
  obtain ⟨p, hp, hinv, hval⟩ := @normalizeFrac_some (a.1 * b.1) (a.2 * b.2) hden
  refine ⟨p, hp, hinv, ?_⟩
  rw [hval, fracVal, fracVal]
  push_cast
  rw [div_mul_div_comm]

theorem normalizeFrac_idem {p : ℤ × ℤ} (h : InvFrac p) :
    normalizeFrac p.1 p.2 = some p := by
  obtain ⟨hpos, hgcd, hzero⟩ := h
  by_cases h0 : p.1 = 0
  · rw [hzero h0]
    decide
  · have hd : p.2 ≠ 0 := ne_of_gt hpos
    have hnlt : ¬ p.2 < 0 := not_lt.mpr (le_of_lt hpos)
    have hg : gcdBig p.1 p.2 = 1 := by
      rw [gcdBig, hgcd]; rfl
    simp only [normalizeFrac, hd, if_false, h0, hnlt, ite_false, hg,
      Int.tdiv_one]

theorem normalizeFrac_bind_idem (n d : ℤ) :
    (normalizeFrac n d).bind (fun p => normalizeFrac p.1 p.2) =
      normalizeFrac n d := by
  cases hp : normalizeFrac n d with
  | none => rfl
  | some p =>
    have hinv := (normalizeFrac_eq_some hp).1
    simp only [Option.bind_eq_bind, Option.some_bind]
    exact normalizeFrac_idem hinv

/-! ### Digit decoding -/

theorem char_toNat_ofNat {m : ℕ} (h : m < 55296) : (Char.ofNat m).toNat = m := by
  have hv : m.isValidChar := Or.inl h
  rw [Char.ofNat, dif_pos hv]
  rfl

theorem toLower_toLower (c : Char) : c.toLower.toLower = c.toLower := by
  simp only [Char.toLower]
  by_cases h : c.toNat ≥ 65 ∧ c.toNat ≤ 90
  · rw [if_pos h]
    have ht : (Char.ofNat (c.toNat + 32)).toNat = c.toNat + 32 :=
      char_toNat_ofNat (by omega)
    rw [if_neg (by rw [ht]; omega)]
  · rw [if_neg h, if_neg h]

theorem charToVal_toLower (c : Char) : charToVal c.toLower = charToVal c := by
  by_cases h : c.toNat ≥ 65 ∧ c.toNat ≤ 90
  · have hl : c.toLower = Char.ofNat (c.toNat + 32) := by
      simp only [Char.toLower]
      rw [if_pos h]
    have ht : (Char.ofNat (c.toNat + 32)).toNat = c.toNat + 32 :=
      char_toNat_ofNat (by omega)
    rw [hl]
    unfold charToVal
    rw [ht]
    rw [if_neg (by omega), if_pos (by omega), if_neg (by omega),
      if_neg (by omega), if_pos (show 65 ≤ c.toNat ∧ c.toNat ≤ 90 from h)]
    congr 1
  · have hl : c.toLower = c := by
      simp only [Char.toLower]
      rw [if_neg h]
    rw [hl]

theorem decodeStep_none {base acc : ℕ} {ch : Char}
    (h : charToVal ch = none ∨ ∃ v, charToVal ch = some v ∧ base ≤ v) :
    decodeStep base acc ch = none := by
  unfold decodeStep
  rcases h with h | ⟨v, hv, hvb⟩
  · rw [h]; rfl
  · rw [hv]
    simp [hvb]

theorem decodeStep_valid {base : ℕ} {ch : Char} {v : ℕ}
    (hv : charToVal ch = some v) (hvb : v < base) (acc : ℕ) :
    decodeStep base acc ch = some (acc * base + v) := by
  unfold decodeStep
  rw [hv]
  simp [not_le.mpr hvb]

theorem decodeStep_toLower (base acc : ℕ) (ch : Char) :
    decodeStep base acc ch.toLower = decodeStep base acc ch := by
  unfold decodeStep
  rw [charToVal_toLower]

theorem decode_fold_toLower (base : ℕ) :
    ∀ (str : List Char) (acc : ℕ),
      (str.map Char.toLower).foldlM (decodeStep base) acc =
        str.foldlM (decodeStep base) acc := by
  intro str
  induction str with
  | nil => intro _; rfl
  | cons ch rest ih =>
    intro acc
    simp only [List.map_cons, List.foldlM_cons]
    rw [decodeStep_toLower]
    cases decodeStep base acc ch with
    | none => rfl
    | some acc' =>
      simp only [Option.bind_eq_bind, Option.some_bind]
      exact ih acc'

theorem decode_fold_valid (base : ℕ) :
    ∀ (str : List Char) (acc : ℕ),
      (∀ ch ∈ str, ∃ v, charToVal ch = some v ∧ v < base) →
      str.foldlM (decodeStep base) acc =
        some (str.foldl (fun acc ch => acc * base + (charToVal ch).getD 0) acc) := by
  intro str
  induction str with
  | nil => intro _ _; rfl
  | cons ch rest ih =>
    intro acc hvalid
    obtain ⟨v, hv, hvb⟩ := hvalid ch (List.mem_cons_self _ _)
    simp only [List.foldlM_cons, List.foldl_cons]
    rw [decodeStep_valid hv hvb]; simp only [Option.bind_eq_bind, Option.some_bind]
    rw [ih _ (fun c hc => hvalid c (List.mem_cons_of_mem _ hc))]
    rw [hv]
    rfl

theorem decode_fold_none (base : ℕ) :
    ∀ (str : List Char) (acc : ℕ),
      (str.foldlM (decodeStep base) acc = none ↔
        ∃ ch ∈ str, charToVal ch = none ∨ ∃ v, charToVal ch = some v ∧ base ≤ v) := by
  intro str
  induction str with
  | nil =>
    intro acc
    simp
  | cons ch rest ih =>
    intro acc
    rw [List.foldlM_cons]
    by_cases hbad : charToVal ch = none ∨ ∃ v, charToVal ch = some v ∧ base ≤ v
    · rw [decodeStep_none hbad]
      simp only [Option.bind_eq_bind, Option.none_bind]
      constructor
      · intro _
        exact ⟨ch, List.mem_cons_self _ _, hbad⟩
      · intro _
        trivial
    · have hne : charToVal ch ≠ none := fun h => hbad (Or.inl h)
      obtain ⟨v, hv⟩ := Option.ne_none_iff_exists'.mp hne
      have hvlt : v < base := by
        by_contra hh
        exact hbad (Or.inr ⟨v, hv, Nat.le_of_not_lt hh⟩)
      rw [decodeStep_valid hv hvlt]; simp only [Option.bind_eq_bind, Option.some_bind]; rw [ih]
      constructor
      · rintro ⟨ch', hmem, hbad'⟩
        exact ⟨ch', List.mem_cons_of_mem _ hmem, hbad'⟩
      · rintro ⟨ch', hmem, hbad'⟩
        rcases List.mem_cons.mp hmem with rfl | hmem'
        · exfalso
          rcases hbad' with h | ⟨w, hw, hwb⟩
          · rw [hv] at h; cases h
          · rw [hv] at hw
            cases hw
            omega
        · exact ⟨ch', hmem', hbad'⟩

/-! ### Claims on decoding and fraction arithmetic -/

/-- C6: every fraction returned by `normalizeFrac`, `addFrac` or `mulFrac`
is normalized — strictly positive denominator, `gcd(|num|, den) = 1`,
canonical `(0, 1)` for a zero numerator — and normalization is
idempotent: renormalizing the result of `normalizeFrac n d` changes
nothing. -/
theorem fraction_invariants (n d : ℤ) (a b p q r : ℤ × ℤ)
    (hn : normalizeFrac n d = some p) (ha : addFrac a b = some q)
    (hm : mulFrac a b = some r) :
    InvFrac p ∧ InvFrac q ∧ InvFrac r ∧
      (normalizeFrac n d).bind (fun u => normalizeFrac u.1 u.2) =
        normalizeFrac n d := by
  have ha' : normalizeFrac (a.1 * b.2 + b.1 * a.2) (a.2 * b.2) = some q := ha
  have hm' : normalizeFrac (a.1 * b.1) (a.2 * b.2) = some r := hm
  exact ⟨(normalizeFrac_eq_some hn).1, (normalizeFrac_eq_some ha').1,
    (normalizeFrac_eq_some hm').1, normalizeFrac_bind_idem n d⟩

/-- Witness for C6 at `normalize(4, -6)`, `add(1/2, 1/3)`,
`multiply(1/2, 1/3)`. -/
theorem fraction_invariants_witness :
    InvFrac (-2, 3) ∧ InvFrac (5, 6) ∧ InvFrac (1, 6) ∧
      (normalizeFrac 4 (-6)).bind (fun u => normalizeFrac u.1 u.2) =
        normalizeFrac 4 (-6) :=
  fraction_invariants 4 (-6) (1, 2) (1, 3) (-2, 3) (5, 6) (1, 6)
    (by decide) (by decide) (by decide)

/-- C7: on a string of digits that are all valid for the base, decoding
succeeds and is the left-to-right accumulation `acc = acc*base + v`;
decoding is insensitive to lowercasing the input, and
`decode("ff", 16) = decode("FF", 16) = 255`. -/
theorem decode_accumulation (str : List Char) (base : ℕ)
    (hvalid : ∀ ch ∈ str, ∃ v, charToVal ch = some v ∧ v < base) :
    decodeBaseToBigInt str base =
      some (str.foldl (fun acc ch => acc * base + (charToVal ch).getD 0) 0) ∧
    decodeBaseToBigInt (str.map Char.toLower) base = decodeBaseToBigInt str base ∧
    decodeBaseToBigInt ['f', 'f'] 16 = some 255 ∧
    decodeBaseToBigInt ['F', 'F'] 16 = some 255 := by
  exact ⟨decode_fold_valid base str 0 hvalid, decode_fold_toLower base str 0,
    by decide, by decide⟩

/-- Witness for C7: `decode("a7", 12) = 127 = (10*12 + 7)`. -/
theorem decode_accumulation_witness :
    decodeBaseToBigInt ['a', '7'] 12 = some 127 :=
  ((decode_accumulation ['a', '7'] 12 (by decide)).1).trans (by decide)

/-- C8 (amended): decoding fails exactly when some character is outside
the program's accepted digit set or its value is at least the base —
where the accepted set is the ASCII alphanumerics together with the two
non-ASCII code points that JS `toLowerCase()` maps into `a..z`,
`U+212A` (value 20) and `U+0130` (value 18); in particular
`decode("g", 16)` fails. -/
theorem decode_invalid_iff (str : List Char) (base : ℕ) :
    (decodeBaseToBigInt str base = none ↔
      ∃ ch ∈ str, charToVal ch = none ∨ ∃ v, charToVal ch = some v ∧ base ≤ v) ∧
    (∀ ch : Char, charToVal ch = none ↔
      ¬ ((48 ≤ ch.toNat ∧ ch.toNat ≤ 57) ∨ (97 ≤ ch.toNat ∧ ch.toNat ≤ 122) ∨
        (65 ≤ ch.toNat ∧ ch.toNat ≤ 90) ∨ ch.toNat = 0x212A ∨
        ch.toNat = 0x130)) ∧
    decodeBaseToBigInt ['g'] 16 = none := by
  refine ⟨decode_fold_none base str 0, ?_, by decide⟩
  intro ch
  unfold charToVal
  split_ifs with h1 h2 h3 h4 h5
  · simp [h1]
  · simp [h2]
  · simp [h3]
  · simp [h4]
  · simp [h5]
  · simp [h1, h2, h3, h4, h5]

/-- Counterexample to C8 as stated: JS `toLowerCase()` is Unicode case
conversion, so the KELVIN SIGN `U+212A` lowercases to `k` and decodes
as digit 20 — `decode("\u212A", 25)` succeeds although the character is
not an ASCII alphanumeric — and `U+0130` likewise decodes as 18 in any
base above 18. -/
theorem decode_invalid_counterexample :
    decodeBaseToBigInt [Char.ofNat 0x212A] 25 = some 20 ∧
    ¬ ((48 ≤ (Char.ofNat 0x212A).toNat ∧ (Char.ofNat 0x212A).toNat ≤ 57) ∨
       (97 ≤ (Char.ofNat 0x212A).toNat ∧ (Char.ofNat 0x212A).toNat ≤ 122) ∨
       (65 ≤ (Char.ofNat 0x212A).toNat ∧ (Char.ofNat 0x212A).toNat ≤ 90)) ∧
    decodeBaseToBigInt [Char.ofNat 0x130] 19 = some 18 :=
  ⟨by decide, by decide, by decide⟩

/-- C10: decoding the empty string succeeds with value `0` for every base
in `[2, 36]`. -/
theorem decode_empty (base : ℕ) (h2 : 2 ≤ base) (h36 : base ≤ 36) :
    decodeBaseToBigInt [] base = some 0 := rfl

/-- Witness for C10 at base 16. -/
theorem decode_empty_witness :
    2 ≤ 16 ∧ (16 : ℕ) ≤ 36 ∧ decodeBaseToBigInt [] 16 = some 0 :=
  ⟨by decide, by decide, decode_empty 16 (by decide) (by decide)⟩

/-! ### The combination generator -/


theorem advAux_nil (m j : ℕ) : advAux m j [] = none := rfl

theorem advAux_cons (m j a : ℕ) (rest : List ℕ) :
    advAux m j (a :: rest) =
      if (a : ℤ) = (m : ℤ) - 1 - (j : ℤ) then
        match advAux m (j + 1) rest with
        | none => none
        | some (v, newRest) => some (v + 1, (v + 1) :: newRest)
      else some (a + 1, (a + 1) :: rest) := rfl

theorem advAux_length {m : ℕ} :
    ∀ {j : ℕ} {r : List ℕ} {v : ℕ} {l : List ℕ},
      advAux m j r = some (v, l) → l.length = r.length := by
  intro j r
  induction r generalizing j with
  | nil => intro v l h; cases h
  | cons a rest ih =>
    intro v l h
    rw [advAux_cons] at h
    split at h
    · cases hrec : advAux m (j + 1) rest with
      | none => rw [hrec] at h; cases h
      | some p =>
        rw [hrec] at h
        cases h
        simpa using ih hrec
    · cases h
      simp

theorem advAux_append {m : ℕ} :
    ∀ {j : ℕ} {r : List ℕ} {v : ℕ} {l : List ℕ},
      advAux m j r = some (v, l) →
      ∀ tail : List ℕ, advAux m j (r ++ tail) = some (v, l ++ tail) := by
  intro j r
  induction r generalizing j with
  | nil => intro v l h; cases h
  | cons a rest ih =>
    intro v l h tail
    rw [List.cons_append, advAux_cons]
    rw [advAux_cons] at h
    split at h <;> rename_i hc
    · rw [if_pos hc]
      cases hrec : advAux m (j + 1) rest with
      | none => rw [hrec] at h; cases h
      | some p =>
        rw [hrec] at h
        cases h
        rw [ih hrec tail]
        rfl
    · rw [if_neg hc]
      cases h
      rw [List.cons_append]

theorem advAux_shift {m : ℕ} :
    ∀ {j : ℕ} (r : List ℕ),
      advAux (m + 1) j (r.map (· + 1)) =
        (advAux m j r).map (fun p => (p.1 + 1, p.2.map (· + 1))) := by
  intro j r
  induction r generalizing j with
  | nil => rfl
  | cons a rest ih =>
    rw [List.map_cons, advAux_cons, advAux_cons]
    by_cases hc : (a : ℤ) = (m : ℤ) - 1 - (j : ℤ)
    · rw [if_pos (by push_cast; omega), if_pos hc, ih]
      cases advAux m (j + 1) rest with
      | none => rfl
      | some p => rfl
    · rw [if_neg (by push_cast; omega), if_neg hc]
      rfl

theorem advAux_none_append_zero {m : ℕ} :
    ∀ {j : ℕ} {r : List ℕ},
      advAux m j r = none →
      advAux (m + 1) j (r.map (· + 1) ++ [0]) =
        if m = j + r.length then none
        else some (r.length + 1,
          ((List.range (r.length + 1)).map (· + 1)).reverse) := by
  intro j r
  induction r generalizing j with
  | nil =>
    intro _
    rw [List.map_nil, List.nil_append, advAux_cons]
    simp only [List.length_nil, Nat.add_zero]
    by_cases hc : m = j
    · rw [if_pos (show ((0 : ℕ) : ℤ) = ((m + 1 : ℕ) : ℤ) - 1 - (j : ℤ) by
        push_cast; omega), if_pos hc]
      rfl
    · rw [if_neg (show ¬ ((0 : ℕ) : ℤ) = ((m + 1 : ℕ) : ℤ) - 1 - (j : ℤ) by
        push_cast; omega), if_neg hc]
      rfl
  | cons a rest ih =>
    intro h
    rw [advAux_cons] at h
    split at h <;> rename_i hc
    · have hrec : advAux m (j + 1) rest = none := by
        cases hrec : advAux m (j + 1) rest with
        | none => rfl
        | some p => rw [hrec] at h; cases h
      rw [List.map_cons, List.cons_append, advAux_cons,
        if_pos (show ((a + 1 : ℕ) : ℤ) = ((m + 1 : ℕ) : ℤ) - 1 - (j : ℤ) by
          push_cast; omega),
        ih hrec]
      simp only [List.length_cons]
      by_cases hm : m = j + rest.length + 1
      · rw [if_pos (show m = j + 1 + rest.length by omega),
          if_pos (show m = j + (rest.length + 1) by omega)]
      · rw [if_neg (show ¬ m = j + 1 + rest.length by omega),
          if_neg (show ¬ m = j + (rest.length + 1) by omega)]
        simp [List.range_succ]
    · cases h

theorem advance_length {m : ℕ} {s t : List ℕ} (h : advance m s = some t) :
    t.length = s.length := by
  unfold advance at h
  cases haux : advAux m 0 s.reverse with
  | none => rw [haux] at h; cases h
  | some p =>
    rw [haux] at h
    simp only [Option.map_some'] at h
    cases h
    simpa using advAux_length haux

theorem advance_shift (m : ℕ) (s : List ℕ) :
    advance (m + 1) (s.map (· + 1)) = (advance m s).map (List.map (· + 1)) := by
  unfold advance
  rw [show (s.map (· + 1)).reverse = s.reverse.map (· + 1) from
    (List.map_reverse _ _).symm, advAux_shift]
  cases advAux m 0 s.reverse with
  | none => rfl
  | some p =>
    simp [List.map_reverse]

theorem advance_cons_zero_some {m : ℕ} {s t : List ℕ}
    (h : advance m s = some t) :
    advance (m + 1) (0 :: s.map (· + 1)) = some (0 :: t.map (· + 1)) := by
  unfold advance at h ⊢
  cases haux : advAux m 0 s.reverse with
  | none => rw [haux] at h; cases h
  | some p =>
    rw [haux] at h
    simp only [Option.map_some'] at h
    cases h
    have h1 := advAux_shift (m := m) (j := 0) s.reverse
    rw [haux] at h1
    simp only [Option.map_some'] at h1
    rw [List.reverse_cons,
      show (s.map (· + 1)).reverse = s.reverse.map (· + 1) from
        (List.map_reverse _ _).symm,
      advAux_append h1 [0]]
    simp [List.map_reverse]

theorem advance_cons_zero_none {m : ℕ} {s : List ℕ}
    (h : advance m s = none) :
    advance (m + 1) (0 :: s.map (· + 1)) =
      if m = s.length then none
      else some ((List.range (s.length + 1)).map (· + 1)) := by
  unfold advance at h ⊢
  have haux : advAux m 0 s.reverse = none := by
    cases haux : advAux m 0 s.reverse with
    | none => rfl
    | some p => rw [haux] at h; cases h
  rw [List.reverse_cons,
    show (s.map (· + 1)).reverse = s.reverse.map (· + 1) from
      (List.map_reverse _ _).symm,
    advAux_none_append_zero haux]
  simp only [List.length_reverse, Nat.zero_add]
  by_cases hm : m = s.length
  · rw [if_pos hm, if_pos hm]
    rfl
  · rw [if_neg hm, if_neg hm]
    simp

theorem runsTo_unique {α : Type} {next : α → Option α} :
    ∀ {s : α} {L1 L2 : List α}, RunsTo next s L1 → RunsTo next s L2 →
      L1 = L2 := by
  intro s L1 L2 h1
  induction h1 generalizing L2 with
  | last s hnone =>
    intro h2
    cases h2 with
    | last _ _ => rfl
    | step _ t _ hsome _ => rw [hnone] at hsome; cases hsome
  | step s t L hsome _ ih =>
    intro h2
    cases h2 with
    | last _ hnone => rw [hnone] at hsome; cases hsome
    | step _ t' L' hsome' hrun' =>
      rw [hsome] at hsome'
      cases hsome'
      rw [ih hrun']

theorem runsTo_shift {m : ℕ} {s : List ℕ} {L : List (List ℕ)}
    (h : RunsTo (advance m) s L) :
    RunsTo (advance (m + 1)) (s.map (· + 1)) (L.map (List.map (· + 1))) := by
  induction h with
  | last s hnone =>
    exact RunsTo.last _ (by rw [advance_shift, hnone]; rfl)
  | step s t L hsome _ ih =>
    exact RunsTo.step _ _ _ (by rw [advance_shift, hsome]; rfl) ih

theorem runsTo_prefix {m k : ℕ} :
    ∀ {s : List ℕ} {L : List (List ℕ)},
      RunsTo (advance m) s L → s.length = k →
      (m = k → RunsTo (advance (m + 1)) (0 :: s.map (· + 1))
          (L.map (fun c => 0 :: c.map (· + 1)))) ∧
      (m ≠ k →
        ∀ M, RunsTo (advance (m + 1)) ((List.range (k + 1)).map (· + 1)) M →
          RunsTo (advance (m + 1)) (0 :: s.map (· + 1))
            (L.map (fun c => 0 :: c.map (· + 1)) ++ M)) := by
  intro s L h
  induction h with
  | last s hnone =>
    intro hlen
    constructor
    · intro hm
      refine RunsTo.last _ ?_
      rw [advance_cons_zero_none hnone, hlen, if_pos hm]
    · intro hm M hM
      refine RunsTo.step _ _ _ ?_ hM
      rw [advance_cons_zero_none hnone, hlen, if_neg hm]
  | step s t L hsome hrun ih =>
    intro hlen
    have hlent : t.length = k := (advance_length hsome).trans hlen
    constructor
    · intro hm
      exact RunsTo.step _ _ _ (advance_cons_zero_some hsome)
        ((ih hlent).1 hm)
    · intro hm M hM
      rw [List.map_cons, List.cons_append]
      exact RunsTo.step _ _ _ (advance_cons_zero_some hsome)
        ((ih hlent).2 hm M hM)

theorem combosList_zero (m : ℕ) : combosList m 0 = [[]] := by
  cases m <;> rfl

theorem combosList_succ_succ (m k : ℕ) :
    combosList (m + 1) (k + 1) =
      (combosList m k).map (fun c => 0 :: c.map (· + 1)) ++
        (combosList m (k + 1)).map (List.map (· + 1)) := rfl

theorem combosList_eq_nil : ∀ {m k : ℕ}, m < k → combosList m k = [] := by
  intro m
  induction m with
  | zero =>
    intro k hk
    cases k with
    | zero => omega
    | succ k => rfl
  | succ m ih =>
    intro k hk
    cases k with
    | zero => omega
    | succ k =>
      rw [combosList_succ_succ, ih (by omega), ih (by omega)]
      rfl

theorem runsTo_combosList : ∀ m k : ℕ, k ≤ m →
    RunsTo (advance m) (List.range k) (combosList m k) := by
  intro m
  induction m with
  | zero =>
    intro k hk
    have hk0 : k = 0 := Nat.le_zero.mp hk
    subst hk0
    rw [combosList_zero]
    exact RunsTo.last _ rfl
  | succ m ihm =>
    intro k hk
    cases k with
    | zero =>
      rw [combosList_zero]
      exact RunsTo.last _ rfl
    | succ k =>
      have hkm : k ≤ m := Nat.lt_succ_iff.mp hk
      have hpre := runsTo_prefix (ihm k hkm) (List.length_range k)
      have hinit : List.range (k + 1) = 0 :: (List.range k).map (· + 1) := by
        rw [List.range_succ_eq_map]
      rw [combosList_succ_succ, hinit]
      by_cases hm : m = k
      · rw [combosList_eq_nil (show m < k + 1 by omega), List.map_nil,
          List.append_nil]
        exact hpre.1 hm
      · exact hpre.2 hm _ (runsTo_shift (ihm (k + 1) (by omega)))

theorem combosList_length : ∀ m k : ℕ,
    (combosList m k).length = Nat.choose m k := by
  intro m
  induction m with
  | zero =>
    intro k
    cases k with
    | zero => rfl
    | succ k => rfl
  | succ m ih =>
    intro k
    cases k with
    | zero => rfl
    | succ k =>
      rw [combosList_succ_succ, Nat.choose_succ_succ]
      simp [ih]

theorem shift_unshift : ∀ {l : List ℕ}, (∀ x ∈ l, 0 < x) →
    (l.map (· - 1)).map (· + 1) = l := by
  intro l
  induction l with
  | nil => intro _; rfl
  | cons a rest ih =>
    intro h
    simp only [List.map_cons, List.cons.injEq]
    constructor
    · have := h a (List.mem_cons_self _ _)
      omega
    · exact ih (fun x hx => h x (List.mem_cons_of_mem _ hx))

theorem pairwise_unshift : ∀ {l : List ℕ}, (∀ x ∈ l, 0 < x) →
    l.Pairwise (· < ·) → (l.map (· - 1)).Pairwise (· < ·) := by
  intro l
  induction l with
  | nil => intro _ _; exact List.Pairwise.nil
  | cons a rest ih =>
    intro hpos hp
    rw [List.pairwise_cons] at hp
    rw [List.map_cons, List.pairwise_cons]
    constructor
    · intro b hb
      obtain ⟨x, hx, rfl⟩ := List.mem_map.mp hb
      have h0 : 0 < a := hpos a (List.mem_cons_self _ _)
      have h1 : 0 < x := hpos x (List.mem_cons_of_mem _ hx)
      have h2 : a < x := hp.1 x hx
      show a - 1 < x - 1
      omega
    · exact ih (fun x hx => hpos x (List.mem_cons_of_mem _ hx)) hp.2

theorem pairwise_shift {l : List ℕ} (hp : l.Pairwise (· < ·)) :
    (l.map (· + 1)).Pairwise (· < ·) := by
  rw [List.pairwise_map]
  exact hp.imp (fun h => Nat.add_lt_add_right h 1)

theorem combosList_valid : ∀ m k : ℕ, ∀ c ∈ combosList m k,
    c.length = k ∧ c.Pairwise (· < ·) ∧ ∀ x ∈ c, x < m := by
  intro m
  induction m with
  | zero =>
    intro k c hc
    cases k with
    | zero =>
      rw [combosList_zero, List.mem_singleton] at hc
      subst hc
      exact ⟨rfl, List.Pairwise.nil, by simp⟩
    | succ k => cases hc
  | succ m ih =>
    intro k c hc
    cases k with
    | zero =>
      rw [combosList_zero, List.mem_singleton] at hc
      subst hc
      exact ⟨rfl, List.Pairwise.nil, by simp⟩
    | succ k =>
      rw [combosList_succ_succ, List.mem_append] at hc
      rcases hc with hc | hc
      · obtain ⟨c', hc', rfl⟩ := List.mem_map.mp hc
        obtain ⟨hlen, hpair, hbound⟩ := ih k c' hc'
        refine ⟨by simp [hlen], ?_, ?_⟩
        · rw [List.pairwise_cons]
          refine ⟨?_, pairwise_shift hpair⟩
          intro b hb
          obtain ⟨x, _, rfl⟩ := List.mem_map.mp hb
          omega
        · intro x hx
          rcases List.mem_cons.mp hx with rfl | hx
          · omega
          · obtain ⟨y, hy, rfl⟩ := List.mem_map.mp hx
            have := hbound y hy
            omega
      · obtain ⟨c', hc', rfl⟩ := List.mem_map.mp hc
        obtain ⟨hlen, hpair, hbound⟩ := ih (k + 1) c' hc'
        refine ⟨by simp [hlen], pairwise_shift hpair, ?_⟩
        intro x hx
        obtain ⟨y, hy, rfl⟩ := List.mem_map.mp hx
        have := hbound y hy
        omega

theorem combosList_coverage : ∀ m k : ℕ, ∀ c : List ℕ,
    c.length = k → c.Pairwise (· < ·) → (∀ x ∈ c, x < m) →
    c ∈ combosList m k := by
  intro m
  induction m with
  | zero =>
    intro k c hlen hpair hbound
    cases c with
    | nil =>
      have hk0 : k = 0 := by simpa using hlen.symm
      subst hk0
      rw [combosList_zero]
      exact List.mem_singleton.mpr rfl
    | cons a c' => exact absurd (hbound a (List.mem_cons_self _ _)) (by omega)
  | succ m ih =>
    intro k c hlen hpair hbound
    cases c with
    | nil =>
      have hk0 : k = 0 := by simpa using hlen.symm
      subst hk0
      rw [combosList_zero]
      exact List.mem_singleton.mpr rfl
    | cons a c' =>
      subst hlen
      rw [List.length_cons, combosList_succ_succ, List.mem_append]
      rw [List.pairwise_cons] at hpair
      by_cases ha : a = 0
      · left
        subst ha
        have hpos : ∀ x ∈ c', 0 < x := fun x hx => hpair.1 x hx
        refine List.mem_map.mpr ⟨c'.map (· - 1), ?_, ?_⟩
        · refine ih _ _ (by simp) (pairwise_unshift hpos hpair.2) ?_
          intro x hx
          obtain ⟨y, hy, rfl⟩ := List.mem_map.mp hx
          have h1 := hbound y (List.mem_cons_of_mem _ hy)
          have h2 := hpos y hy
          omega
        · rw [shift_unshift hpos]
      · right
        have hpos : ∀ x ∈ a :: c', 0 < x := by
          intro x hx
          rcases List.mem_cons.mp hx with rfl | hx
          · omega
          · have := hpair.1 x hx
            omega
        refine List.mem_map.mpr ⟨(a :: c').map (· - 1), ?_, ?_⟩
        · refine ih _ _ (by simp) ?_ ?_
          · exact pairwise_unshift hpos (List.pairwise_cons.mpr hpair)
          · intro x hx
            obtain ⟨y, hy, rfl⟩ := List.mem_map.mp hx
            have h1 := hbound y hy
            have h2 := hpos y hy
            omega
        · rw [shift_unshift hpos]

theorem lex_shift {c₁ c₂ : List ℕ} (h : List.Lex (· < ·) c₁ c₂) :
    List.Lex (· < ·) (c₁.map (· + 1)) (c₂.map (· + 1)) := by
  induction h with
  | nil => exact List.Lex.nil
  | cons h ih =>
    rw [List.map_cons, List.map_cons]
    exact List.Lex.cons ih
  | rel hab =>
    rw [List.map_cons, List.map_cons]
    exact List.Lex.rel (by omega)

theorem combosList_sortedLex : ∀ m k : ℕ,
    (combosList m k).Pairwise (List.Lex (· < ·)) := by
  intro m
  induction m with
  | zero =>
    intro k
    cases k with
    | zero => rw [combosList_zero]; simp
    | succ k => exact List.Pairwise.nil
  | succ m ih =>
    intro k
    cases k with
    | zero => rw [combosList_zero]; simp
    | succ k =>
      rw [combosList_succ_succ, List.pairwise_append]
      refine ⟨?_, ?_, ?_⟩
      · rw [List.pairwise_map]
        exact (ih k).imp (fun h => List.Lex.cons (lex_shift h))
      · rw [List.pairwise_map]
        exact (ih (k + 1)).imp (fun h => lex_shift h)
      · intro a ha b hb
        obtain ⟨c₁, hc₁, rfl⟩ := List.mem_map.mp ha
        obtain ⟨c₂, hc₂, rfl⟩ := List.mem_map.mp hb
        have hlen := (combosList_valid m (k + 1) c₂ hc₂).1
        cases c₂ with
        | nil => simp at hlen
        | cons h2 t2 =>
          rw [List.map_cons]
          exact List.Lex.rel (by omega)

theorem advance_snoc_ge {m j : ℕ} (r : List ℕ) (hj : m ≤ j) :
    advance m (r ++ [j]) = some (r ++ [j + 1]) := by
  unfold advance
  rw [List.reverse_append]
  simp only [List.reverse_singleton, List.singleton_append]
  rw [advAux_cons, if_neg (by push_cast; omega)]
  simp only [Option.map_some']
  rw [List.reverse_cons, List.reverse_reverse]

theorem comboIter_diverge {m k : ℕ} (hmk : m < k) :
    ∀ n : ℕ, comboIter m k n = some (List.range (k - 1) ++ [k - 1 + n]) := by
  obtain ⟨q, rfl⟩ : ∃ q, k = q + 1 := ⟨k - 1, by omega⟩
  simp only [Nat.add_sub_cancel]
  intro n
  induction n with
  | zero =>
    show some (List.range (q + 1)) = _
    rw [List.range_succ, Nat.add_zero]
  | succ n ih =>
    show (comboIter m (q + 1) n).bind (advance m) = _
    rw [ih, Option.some_bind, advance_snoc_ge _ (by omega)]
    rw [show q + (n + 1) = q + n + 1 from rfl]

theorem runsTo_iter_none {α : Type} {next : α → Option α} :
    ∀ {s : α} {L : List α}, RunsTo next s L →
      ∀ f : ℕ → Option α, f 0 = some s →
      (∀ i, f (i + 1) = (f i).bind next) → f L.length = none := by
  intro s L h
  induction h with
  | last s hn =>
    intro f h0 hstep
    rw [show ([s] : List α).length = 1 from rfl, hstep 0, h0, Option.some_bind, hn]
  | step s t L hs _ ih =>
    intro f h0 hstep
    have hf1 : f 1 = some t := by rw [hstep 0, h0, Option.some_bind, hs]
    have := ih (fun i => f (i + 1)) hf1 (fun i => hstep (i + 1))
    simpa using this

theorem mapM_get?_none {pts : List (ℤ × ℤ)} :
    ∀ {combo : List ℕ} {i : ℕ}, i ∈ combo → pts.length ≤ i →
      combo.mapM (fun j => pts.get? j) = none := by
  intro combo
  induction combo with
  | nil => intro i hi; cases hi
  | cons a rest ih =>
    intro i hi hge
    rcases List.mem_cons.mp hi with rfl | hmem
    · rw [List.mapM_cons, List.get?_eq_none.mpr hge]
      rfl
    · cases hget : pts.get? a with
      | none => rw [List.mapM_cons, hget]; rfl
      | some p =>
        rw [List.mapM_cons, hget, ih hmem hge]
        rfl

/-! ### Claims on the combination generator -/

/-- C3 (amended to `1 ≤ k ≤ m`): the generator `combinations(m, k)` runs
to completion yielding exactly the list `combosList m k`, which has
`C(m, k)` elements, each a strictly increasing `k`-element sequence over
`0..m-1`; the list is strictly lexicographically sorted (hence duplicate
free) and contains every such sequence.  For `m < k` the generator never
terminates (see the counterexample and C9). -/
theorem combinations_enumeration (m k : ℕ) (hk : 1 ≤ k) (hkm : k ≤ m) :
    RunsTo (advance m) (List.range k) (combosList m k) ∧
    (combosList m k).length = Nat.choose m k ∧
    (∀ c ∈ combosList m k,
      c.length = k ∧ c.Pairwise (· < ·) ∧ ∀ x ∈ c, x < m) ∧
    (combosList m k).Pairwise (List.Lex (· < ·)) ∧
    (∀ c : List ℕ, c.length = k → c.Pairwise (· < ·) → (∀ x ∈ c, x < m) →
      c ∈ combosList m k) :=
  ⟨runsTo_combosList m k hkm, combosList_length m k, combosList_valid m k,
    combosList_sortedLex m k, combosList_coverage m k⟩

/-- Witness for C3 at `m = 3`, `k = 2`. -/
theorem combinations_enumeration_witness :
    RunsTo (advance 3) (List.range 2) (combosList 3 2) ∧
    (combosList 3 2).length = Nat.choose 3 2 ∧
    combosList 3 2 = [[0, 1], [0, 2], [1, 2]] :=
  ⟨(combinations_enumeration 3 2 (by decide) (by decide)).1,
    (combinations_enumeration 3 2 (by decide) (by decide)).2.1, by decide⟩

/-- Counterexample to C3 as stated: for `m = 0`, `k = 1` the claim
promises a finite sequence of exactly `C(0,1) = 0` index sequences, but
the generator yields `[0]` immediately and yields `[1]` after one
advance — index sequences that are not even within `0..m-1`. -/
theorem combinations_counterexample :
    Nat.choose 0 1 = 0 ∧ comboIter 0 1 0 = some [0] ∧
      comboIter 0 1 1 = some [1] :=
  ⟨rfl, rfl, by decide⟩

/-- C9: when fewer points than the threshold are decoded (`m < k`), the
generator `combinations(m, k)` never terminates: after `n` advances it
yields `[0, ..., k-2, k-1+n]` and keeps going; every yield contains an
index `≥ m`, so the corresponding `points[i]` lookup fails and the
subset's interpolation is skipped; no finite run of the generator
exists. -/
theorem combinations_diverge (m k : ℕ) (hmk : m < k) :
    (∀ n : ℕ, comboIter m k n = some (List.range (k - 1) ++ [k - 1 + n])) ∧
    (∀ n s, comboIter m k n = some s → ∃ i ∈ s, m ≤ i) ∧
    (∀ (n : ℕ) (s : List ℕ) (pts : List (ℤ × ℤ)), comboIter m k n = some s →
      pts.length = m → subsetValue pts s = none) ∧
    (∀ L : List (List ℕ), ¬ RunsTo (advance m) (List.range k) L) := by
  have hiter := comboIter_diverge hmk
  refine ⟨hiter, ?_, ?_, ?_⟩
  · intro n s hs
    rw [hiter n] at hs
    cases hs
    exact ⟨k - 1 + n, by simp, by omega⟩
  · intro n s pts hs hlen
    rw [hiter n] at hs
    cases hs
    unfold subsetValue
    rw [mapM_get?_none (List.mem_append_right _ (List.mem_singleton.mpr rfl))
      (by omega)]
    rfl
  · intro L hL
    have hnone := runsTo_iter_none hL (comboIter m k) rfl (fun i => rfl)
    rw [hiter L.length] at hnone
    cases hnone

/-- Witness for C9 at `m = 1`, `k = 2`: the generator still yields a
subset after 5 advances, and each yield's interpolation is skipped. -/
theorem combinations_diverge_witness :
    comboIter 1 2 0 = some [0, 1] ∧ comboIter 1 2 5 = some [0, 6] ∧
      subsetValue [(7, 9)] [0, 6] = none :=
  ⟨(combinations_diverge 1 2 (by decide)).1 0,
    (combinations_diverge 1 2 (by decide)).1 5,
    (combinations_diverge 1 2 (by decide)).2.2.1 5 [0, 6] [(7, 9)]
      (by decide) (by decide)⟩

/-! ### Interpolation: the fraction computation equals the rational
Lagrange value -/

theorem liStep_fold {pts : List (ℤ × ℤ)} {xi : ℤ} {i : ℕ} :
    ∀ (l : List ℕ) (acc : ℤ × ℤ), acc.2 ≠ 0 →
      (∀ j ∈ l, j ≠ i → xi ≠ (pts.getD j (0, 0)).1) →
      ∃ r, l.foldlM (liStep pts xi i) acc = some r ∧ r.2 ≠ 0 ∧
        fracVal r = fracVal acc *
          (l.map (fun j => if i = j then (1 : ℚ) else
            (-((pts.getD j (0, 0)).1 : ℚ)) /
              ((xi : ℚ) - ((pts.getD j (0, 0)).1 : ℚ)))).prod := by
  intro l
  induction l with
  | nil =>
    intro acc hacc _
    exact ⟨acc, rfl, hacc, by simp⟩
  | cons j rest ih =>
    intro acc hacc hx
    rw [List.foldlM_cons]
    by_cases hij : i = j
    · have hstep : liStep pts xi i acc j = some acc := by
        unfold liStep
        rw [if_pos hij]
      rw [hstep]
      simp only [Option.bind_eq_bind, Option.some_bind]
      obtain ⟨r, hr, hrne, hrval⟩ :=
        ih acc hacc (fun u hu => hx u (List.mem_cons_of_mem _ hu))
      refine ⟨r, hr, hrne, ?_⟩
      rw [hrval, List.map_cons, List.prod_cons, if_pos hij]
      ring
    · have hxj : xi ≠ (pts.getD j (0, 0)).1 :=
        hx j (List.mem_cons_self _ _) (fun hh => hij hh.symm)
      have hden : xi - (pts.getD j (0, 0)).1 ≠ 0 := sub_ne_zero.mpr hxj
      obtain ⟨f, hf, hfinv, hfval⟩ :=
        @normalizeFrac_some (-(pts.getD j (0, 0)).1) (xi - (pts.getD j (0, 0)).1)
          hden
      obtain ⟨g, hg, hginv, hgval⟩ :=
        mulFrac_some hacc (invFrac_den_ne_zero hfinv)
      have hstep : liStep pts xi i acc j = some g := by
        unfold liStep
        rw [if_neg hij, hf]
        simpa using hg
      rw [hstep]
      simp only [Option.bind_eq_bind, Option.some_bind]
      obtain ⟨r, hr, hrne, hrval⟩ :=
        ih g (invFrac_den_ne_zero hginv)
          (fun u hu => hx u (List.mem_cons_of_mem _ hu))
      refine ⟨r, hr, hrne, ?_⟩
      rw [hrval, hgval, hfval, List.map_cons, List.prod_cons, if_neg hij]
      push_cast
      ring

theorem sumStep_fold {pts : List (ℤ × ℤ)}
    (hx : ∀ i j : ℕ, i < pts.length → j < pts.length → i ≠ j →
      (pts.getD i (0, 0)).1 ≠ (pts.getD j (0, 0)).1) :
    ∀ (l : List ℕ), (∀ i ∈ l, i < pts.length) →
      ∀ acc : ℤ × ℤ, acc.2 ≠ 0 →
      ∃ r, l.foldlM (sumStep pts) acc = some r ∧ r.2 ≠ 0 ∧
        fracVal r = fracVal acc + (l.map (fun i =>
          ((pts.getD i (0, 0)).2 : ℚ) *
            ((List.range pts.length).map (fun j => if i = j then (1 : ℚ) else
              (-((pts.getD j (0, 0)).1 : ℚ)) /
                (((pts.getD i (0, 0)).1 : ℚ) -
                  ((pts.getD j (0, 0)).1 : ℚ)))).prod)).sum := by
  intro l
  induction l with
  | nil =>
    intro _ acc hacc
    exact ⟨acc, rfl, hacc, by simp⟩
  | cons i rest ih =>
    intro hmem acc hacc
    rw [List.foldlM_cons]
    have hi : i < pts.length := hmem i (List.mem_cons_self _ _)
    have hxv : ∀ j ∈ List.range pts.length, j ≠ i →
        (pts.getD i (0, 0)).1 ≠ (pts.getD j (0, 0)).1 := by
      intro j hj hji
      exact hx i j hi (List.mem_range.mp hj) (fun hh => hji hh.symm)
    obtain ⟨li, hli, hline, hlival⟩ :=
      liStep_fold (List.range pts.length) ((1 : ℤ), (1 : ℤ)) (by simp) hxv
    obtain ⟨tm, htm, htminv, htmval⟩ :=
      mulFrac_some (a := ((pts.getD i (0, 0)).2, (1 : ℤ))) (by simp) hline
    obtain ⟨sm, hsm, hsminv, hsmval⟩ :=
      addFrac_some hacc (invFrac_den_ne_zero htminv)
    have hstep : sumStep pts acc i = some sm := by
      simp only [sumStep]
      rw [hli]
      simp only [Option.bind_eq_bind, Option.some_bind]
      rw [htm]
      simp only [Option.some_bind]
      exact hsm
    rw [hstep]
    simp only [Option.bind_eq_bind, Option.some_bind]
    obtain ⟨r, hr, hrne, hrval⟩ :=
      ih (fun u hu => hmem u (List.mem_cons_of_mem _ hu)) sm
        (invFrac_den_ne_zero hsminv)
    refine ⟨r, hr, hrne, ?_⟩
    rw [hrval, hsmval, htmval, hlival, List.map_cons, List.sum_cons]
    have h1 : fracVal ((pts.getD i (0, 0)).2, (1 : ℤ)) =
        ((pts.getD i (0, 0)).2 : ℚ) := by
      rw [fracVal]
      simp
    have h2 : fracVal ((1 : ℤ), (1 : ℤ)) = 1 := by
      rw [fracVal]
      simp
    rw [h1, h2]
    ring

theorem list_range_map_sum (f : ℕ → ℚ) : ∀ n : ℕ,
    ((List.range n).map f).sum = ∑ i ∈ Finset.range n, f i := by
  intro n
  induction n with
  | zero => rfl
  | succ n ih =>
    rw [List.range_succ, List.map_append, List.sum_append,
      Finset.sum_range_succ, ih]
    simp

theorem list_range_map_prod (f : ℕ → ℚ) : ∀ n : ℕ,
    ((List.range n).map f).prod = ∏ i ∈ Finset.range n, f i := by
  intro n
  induction n with
  | zero => rfl
  | succ n ih =>
    rw [List.range_succ, List.map_append, List.prod_append,
      Finset.prod_range_succ, ih]
    simp

theorem prod_ite_erase (n i : ℕ) (g : ℕ → ℚ) :
    (∏ j ∈ Finset.range n, if i = j then (1 : ℚ) else g j) =
      ∏ j ∈ (Finset.range n).erase i, g j := by
  calc (∏ j ∈ Finset.range n, if i = j then (1 : ℚ) else g j)
      = ∏ j ∈ (Finset.range n).erase i, if i = j then (1 : ℚ) else g j :=
        (@Finset.prod_erase ℕ ℚ _ _ (Finset.range n)
          (fun j => if i = j then (1 : ℚ) else g j) i (by simp)).symm
    _ = ∏ j ∈ (Finset.range n).erase i, g j :=
        Finset.prod_congr rfl
          (fun j hj => if_neg (fun hh => (Finset.mem_erase.mp hj).1 hh.symm))

theorem interpolate_fold {pts : List (ℤ × ℤ)}
    (hx : ∀ i j : ℕ, i < pts.length → j < pts.length → i ≠ j →
      (pts.getD i (0, 0)).1 ≠ (pts.getD j (0, 0)).1) :
    ∃ s, (List.range pts.length).foldlM (sumStep pts) ((0 : ℤ), (1 : ℤ)) =
        some s ∧ s.2 ≠ 0 ∧ fracVal s = rationalLagrange pts := by
  obtain ⟨s, hs, hne, hval⟩ := sumStep_fold hx (List.range pts.length)
    (fun i hi => List.mem_range.mp hi) ((0 : ℤ), (1 : ℤ)) (by simp)
  refine ⟨s, hs, hne, ?_⟩
  rw [hval]
  have h0 : fracVal ((0 : ℤ), (1 : ℤ)) = 0 := by
    rw [fracVal]; simp
  rw [h0, zero_add, list_range_map_sum]
  unfold rationalLagrange
  refine Finset.sum_congr rfl ?_
  intro i _
  congr 1
  rw [list_range_map_prod, prod_ite_erase]

theorem invFrac_dvd_den_one {p : ℤ × ℤ} (h : InvFrac p) (hdvd : p.2 ∣ p.1) :
    p.2 = 1 := by
  obtain ⟨hpos, hgcd, _⟩ := h
  have h1 : p.2.natAbs ∣ Int.gcd p.1 p.2 :=
    Nat.dvd_gcd (Int.natAbs_dvd_natAbs.mpr hdvd) dvd_rfl
  rw [hgcd] at h1
  have h2 : p.2.natAbs = 1 := Nat.dvd_one.mp h1
  omega

theorem invFrac_eq_int {p : ℤ × ℤ} (h : InvFrac p) {z : ℤ}
    (hv : fracVal p = (z : ℚ)) : p = (z, 1) := by
  have hpos := h.1
  have hne : (p.2 : ℚ) ≠ 0 := by exact_mod_cast ne_of_gt hpos
  have h1 : (p.1 : ℚ) = (z : ℚ) * (p.2 : ℚ) := by
    rw [fracVal, div_eq_iff hne] at hv
    exact hv
  have h2 : p.1 = z * p.2 := by exact_mod_cast h1
  have hdvd : p.2 ∣ p.1 := ⟨z, by rw [h2]; ring⟩
  have hden := invFrac_dvd_den_one h hdvd
  have hnum : p.1 = z := by rw [h2, hden, mul_one]
  calc p = (p.1, p.2) := rfl
    _ = (z, 1) := by rw [hnum, hden]

theorem interpolateAtZero_eq_some_iff {pts : List (ℤ × ℤ)}
    (hx : ∀ i j : ℕ, i < pts.length → j < pts.length → i ≠ j →
      (pts.getD i (0, 0)).1 ≠ (pts.getD j (0, 0)).1) (z : ℤ) :
    interpolateAtZero pts = some z ↔ (z : ℚ) = rationalLagrange pts := by
  obtain ⟨s, hs, hne, hval⟩ := interpolate_fold hx
  obtain ⟨p, hp, hpinv, hpval⟩ := @normalizeFrac_some s.1 s.2 hne
  have hfv : fracVal p = rationalLagrange pts := hpval.trans hval
  simp only [interpolateAtZero]
  rw [hs]
  simp only [Option.bind_eq_bind, Option.some_bind]
  rw [hp]
  simp only [Option.some_bind]
  constructor
  · intro h
    by_cases hmod : p.1.tmod p.2 = 0
    · rw [if_pos hmod] at h
      cases h
      have hdvd : p.2 ∣ p.1 := Int.dvd_of_tmod_eq_zero hmod
      have hden := invFrac_dvd_den_one hpinv hdvd
      rw [← hfv, fracVal, hden, Int.tdiv_one]
      simp
    · rw [if_neg hmod] at h
      cases h
  · intro h
    have hpz : p = (z, 1) := invFrac_eq_int hpinv (by rw [hfv]; exact h.symm)
    rw [hpz]
    simp

theorem rationalLagrange_eq_eval (pts : List (ℤ × ℤ)) :
    rationalLagrange pts =
      (Lagrange.interpolate (Finset.range pts.length)
          (fun i => ((pts.getD i (0, 0)).1 : ℚ))
          (fun i => ((pts.getD i (0, 0)).2 : ℚ))).eval 0 := by
  rw [Lagrange.interpolate_apply, Polynomial.eval_finset_sum]
  unfold rationalLagrange
  refine Finset.sum_congr rfl ?_
  intro i _
  rw [Polynomial.eval_mul, Polynomial.eval_C]
  congr 1
  simp only [Lagrange.basis]
  rw [Polynomial.eval_prod]
  refine Finset.prod_congr rfl ?_
  intro j _
  simp only [Lagrange.basisDivisor]
  rw [Polynomial.eval_mul, Polynomial.eval_C, Polynomial.eval_sub,
    Polynomial.eval_X, Polynomial.eval_C, zero_sub, div_eq_mul_inv, mul_comm]

theorem hornerQ_nil : hornerQ [] = 0 := rfl

theorem hornerQ_cons (a : ℤ) (c : List ℤ) :
    hornerQ (a :: c) = Polynomial.C (a : ℚ) + Polynomial.X * hornerQ c := rfl

theorem hornerQ_eval : ∀ (c : List ℤ) (x : ℤ),
    (hornerQ c).eval (x : ℚ) = ((evalPoly c x : ℤ) : ℚ) := by
  intro c
  induction c with
  | nil =>
    intro x
    rw [hornerQ_nil, Polynomial.eval_zero]
    simp [evalPoly]
  | cons a rest ih =>
    intro x
    rw [hornerQ_cons, Polynomial.eval_add, Polynomial.eval_C,
      Polynomial.eval_mul, Polynomial.eval_X, ih]
    show _ = ((a + x * evalPoly rest x : ℤ) : ℚ)
    push_cast
    ring

theorem hornerQ_degree : ∀ c : List ℤ,
    (hornerQ c).degree < ((c.length : ℕ) : WithBot ℕ) := by
  intro c
  induction c with
  | nil =>
    rw [hornerQ_nil, Polynomial.degree_zero]
    exact WithBot.bot_lt_coe _
  | cons a rest ih =>
    rw [hornerQ_cons]
    refine lt_of_le_of_lt (Polynomial.degree_add_le _ _) (max_lt ?_ ?_)
    · refine lt_of_le_of_lt Polynomial.degree_C_le ?_
      exact_mod_cast Nat.succ_pos rest.length
    · calc (Polynomial.X * hornerQ rest).degree
          ≤ Polynomial.X.degree + (hornerQ rest).degree :=
            Polynomial.degree_mul_le _ _
        _ = 1 + (hornerQ rest).degree := by rw [Polynomial.degree_X]
        _ < 1 + ((rest.length : ℕ) : WithBot ℕ) :=
            WithBot.add_lt_add_left (by decide) ih
        _ = (((rest.length + 1 : ℕ) : ℕ) : WithBot ℕ) := by
            push_cast
            ring
        _ = (((a :: rest).length : ℕ) : WithBot ℕ) := by
            rw [List.length_cons]

theorem nodup_fst_pairwise {pts : List (ℤ × ℤ)}
    (hx : (pts.map Prod.fst).Nodup) :
    ∀ i j : ℕ, i < pts.length → j < pts.length → i ≠ j →
      (pts.getD i (0, 0)).1 ≠ (pts.getD j (0, 0)).1 := by
  intro i j hi hj hij heq
  apply hij
  have hi' : i < (pts.map Prod.fst).length := by simpa using hi
  have hj' : j < (pts.map Prod.fst).length := by simpa using hj
  have h1 : (pts.map Prod.fst).get ⟨i, hi'⟩ = (pts.getD i (0, 0)).1 := by
    rw [List.get_eq_getElem, List.getElem_map, List.getD_eq_getElem]
  have h2 : (pts.map Prod.fst).get ⟨j, hj'⟩ = (pts.getD j (0, 0)).1 := by
    rw [List.get_eq_getElem, List.getElem_map, List.getD_eq_getElem]
  have h3 : (⟨i, hi'⟩ : Fin (pts.map Prod.fst).length) = ⟨j, hj'⟩ :=
    (List.Nodup.get_inj_iff hx).mp (by rw [h1, h2]; exact heq)
  exact congrArg Fin.val h3

theorem interpolate_on_poly {pts : List (ℤ × ℤ)} {c : List ℤ}
    (hne : 0 < pts.length) (hlen : c.length = pts.length)
    (hx : (pts.map Prod.fst).Nodup)
    (hcurve : ∀ p ∈ pts, p.2 = evalPoly c p.1) :
    interpolateAtZero pts = some (evalPoly c 0) := by
  have hx' := nodup_fst_pairwise hx
  rw [interpolateAtZero_eq_some_iff hx', rationalLagrange_eq_eval]
  have hinj : Set.InjOn (fun i => ((pts.getD i (0, 0)).1 : ℚ))
      (Finset.range pts.length) := by
    intro i hi j hj hval
    have hval' : ((pts.getD i (0, 0)).1 : ℚ) = ((pts.getD j (0, 0)).1 : ℚ) :=
      hval
    by_contra hij
    refine hx' i j ?_ ?_ hij (by exact_mod_cast hval')
    · simpa using hi
    · simpa using hj
  have hdeg : (hornerQ c).degree < (Finset.range pts.length).card := by
    rw [Finset.card_range, ← hlen]
    exact hornerQ_degree c
  have hev : ∀ i ∈ Finset.range pts.length,
      (hornerQ c).eval ((pts.getD i (0, 0)).1 : ℚ) =
        ((pts.getD i (0, 0)).2 : ℚ) := by
    intro i hi
    have hilt : i < pts.length := List.mem_range.mp hi
    have hmem : pts.getD i (0, 0) ∈ pts := by
      rw [List.getD_eq_getElem _ _ hilt]
      exact List.getElem_mem _
    have := hcurve _ hmem
    rw [hornerQ_eval]
    exact_mod_cast this.symm
  have hfin : hornerQ c =
      Lagrange.interpolate (Finset.range pts.length)
        (fun i => ((pts.getD i (0, 0)).1 : ℚ))
        (fun i => ((pts.getD i (0, 0)).2 : ℚ)) :=
    Lagrange.eq_interpolate_of_eval_eq _ hinj hdeg hev
  rw [← hfin, show (0 : ℚ) = ((0 : ℤ) : ℚ) from by norm_num, hornerQ_eval]

/-- C1: for `k ≥ 1` points with pairwise distinct `x` values lying
exactly on an integer-coefficient polynomial with coefficient list `c`
(degree at most `k-1`, with `k = |c|`), `interpolateAtZero` succeeds, in
any order of the points, and returns exactly the polynomial's constant
term `evalPoly c 0`, its value at `x = 0`. -/
theorem interpolateAtZero_exact (pts : List (ℤ × ℤ)) (c : List ℤ)
    (hne : 0 < pts.length) (hlen : c.length = pts.length)
    (hx : (pts.map Prod.fst).Nodup)
    (hcurve : ∀ p ∈ pts, p.2 = evalPoly c p.1) :
    interpolateAtZero pts = some (evalPoly c 0) :=
  interpolate_on_poly hne hlen hx hcurve

/-- Witness for C1: the points `(1,4), (2,7), (3,12)` lie on `x² + 3`
and interpolate to `3` at zero, in two different supply orders. -/
theorem interpolateAtZero_exact_witness :
    interpolateAtZero [(1, 4), (2, 7), (3, 12)] = some 3 ∧
      interpolateAtZero [(3, 12), (1, 4), (2, 7)] = some 3 :=
  ⟨interpolateAtZero_exact [(1, 4), (2, 7), (3, 12)] [3, 0, 1]
      (by decide) (by decide) (by decide) (by decide),
    interpolateAtZero_exact [(3, 12), (1, 4), (2, 7)] [3, 0, 1]
      (by decide) (by decide) (by decide) (by decide)⟩

/-! ### The consensus tally and the winner scan -/

theorem tallyAdd_new : ∀ {t : List (ℤ × ℕ × Finset ℕ)} {v0 : ℤ}
    {c : List ℕ}, (∀ e ∈ t, e.1 ≠ v0) →
    tallyAdd t v0 c = t ++ [(v0, 1, c.toFinset)] := by
  intro t
  induction t with
  | nil => intro v0 c _; rfl
  | cons e rest ih =>
    intro v0 c hfresh
    rw [tallyAdd, if_neg (hfresh e (List.mem_cons_self _ _)), List.cons_append]
    rw [ih (fun u hu => hfresh u (List.mem_cons_of_mem _ hu))]

theorem tallyAdd_update : ∀ {t : List (ℤ × ℕ × Finset ℕ)} {v0 : ℤ}
    {c : List ℕ}, (t.map (fun e => e.1)).Nodup →
    (∃ e₀ ∈ t, e₀.1 = v0) →
    tallyAdd t v0 c = t.map (fun e =>
      if e.1 = v0 then (v0, e.2.1 + 1, e.2.2 ∪ c.toFinset) else e) := by
  intro t
  induction t with
  | nil =>
    intro v0 c _ hex
    obtain ⟨e₀, he₀, _⟩ := hex
    cases he₀
  | cons e rest ih =>
    intro v0 c hnd hex
    rw [List.map_cons, List.nodup_cons] at hnd
    by_cases hev : e.1 = v0
    · rw [tallyAdd, if_pos hev, List.map_cons, if_pos hev]
      have hrest : rest.map (fun u =>
          if u.1 = v0 then (v0, u.2.1 + 1, u.2.2 ∪ c.toFinset) else u) = rest := by
        have hid : ∀ u ∈ rest, (if u.1 = v0 then
            (v0, u.2.1 + 1, u.2.2 ∪ c.toFinset) else u) = u := by
          intro u hu
          rw [if_neg]
          intro huv
          exact hnd.1 (List.mem_map.mpr ⟨u, hu, huv.trans hev.symm⟩)
        rw [List.map_congr_left hid, List.map_id']
      rw [hrest]
    · rw [tallyAdd, if_neg hev, List.map_cons, if_neg hev]
      have hex' : ∃ e₀ ∈ rest, e₀.1 = v0 := by
        obtain ⟨e₀, he₀, hv⟩ := hex
        rcases List.mem_cons.mp he₀ with rfl | hmem
        · exact absurd hv hev
        · exact ⟨e₀, hmem, hv⟩
      rw [ih hnd.2 hex']

theorem buildTally_append (pts : List (ℤ × ℤ)) (l : List (List ℕ))
    (c : List ℕ) :
    buildTally pts (l ++ [c]) =
      match subsetValue pts c with
      | none => buildTally pts l
      | some v => tallyAdd (buildTally pts l) v c := by
  unfold buildTally
  rw [List.foldl_append]
  rfl

theorem buildTally_append_none {pts : List (ℤ × ℤ)} {c : List ℕ}
    (l : List (List ℕ)) (h : subsetValue pts c = none) :
    buildTally pts (l ++ [c]) = buildTally pts l := by
  rw [buildTally_append, h]

theorem buildTally_append_some {pts : List (ℤ × ℤ)} {c : List ℕ} {v : ℤ}
    (l : List (List ℕ)) (h : subsetValue pts c = some v) :
    buildTally pts (l ++ [c]) = tallyAdd (buildTally pts l) v c := by
  rw [buildTally_append, h]

theorem buildTally_filter (pts : List (ℤ × ℤ)) :
    ∀ (combos : List (List ℕ)) (t : List (ℤ × ℕ × Finset ℕ)),
      combos.foldl (fun t combo =>
        match subsetValue pts combo with
        | none => t
        | some c => tallyAdd t c combo) t =
      (combos.filter (fun c => (subsetValue pts c).isSome)).foldl
        (fun t combo =>
          match subsetValue pts combo with
          | none => t
          | some c => tallyAdd t c combo) t := by
  intro combos
  induction combos with
  | nil => intro t; rfl
  | cons c rest ih =>
    intro t
    rw [List.foldl_cons]
    cases hc : subsetValue pts c with
    | none =>
      rw [List.filter_cons_of_neg (by simp [hc])]
      exact ih t
    | some v =>
      rw [List.filter_cons_of_pos (by simp [hc]), List.foldl_cons, hc]
      exact ih _

theorem tallyAdd_ne_nil (t : List (ℤ × ℕ × Finset ℕ)) (v : ℤ) (c : List ℕ) :
    tallyAdd t v c ≠ [] := by
  cases t with
  | nil => simp [tallyAdd]
  | cons e rest =>
    rw [tallyAdd]
    split <;> simp

theorem buildTally_eq_nil (pts : List (ℤ × ℤ)) :
    ∀ (combos : List (List ℕ)) (t : List (ℤ × ℕ × Finset ℕ)),
      (combos.foldl (fun t combo =>
        match subsetValue pts combo with
        | none => t
        | some c => tallyAdd t c combo) t = [] ↔
      (t = [] ∧ ∀ c ∈ combos, subsetValue pts c = none)) := by
  intro combos
  induction combos with
  | nil =>
    intro t
    simp
  | cons c rest ih =>
    intro t
    rw [List.foldl_cons]
    cases hc : subsetValue pts c with
    | none =>
      rw [ih t]
      constructor
      · rintro ⟨h1, h2⟩
        refine ⟨h1, ?_⟩
        intro u hu
        rcases List.mem_cons.mp hu with rfl | hmem
        · exact hc
        · exact h2 u hmem
      · rintro ⟨h1, h2⟩
        exact ⟨h1, fun u hu => h2 u (List.mem_cons_of_mem _ hu)⟩
    | some v =>
      rw [ih _]
      constructor
      · rintro ⟨h1, _⟩
        exact absurd h1 (tallyAdd_ne_nil t v c)
      · rintro ⟨_, h2⟩
        exact absurd hc (by rw [h2 c (List.mem_cons_self _ _)]; simp)

theorem buildTally_spec (pts : List (ℤ × ℤ)) (combos : List (List ℕ)) :
    ((buildTally pts combos).map (fun e => e.1)).Nodup ∧
    (∀ e ∈ buildTally pts combos,
      e.2.1 = combos.countP (fun c => decide (subsetValue pts c = some e.1))) ∧
    (∀ e ∈ buildTally pts combos, ∀ i : ℕ,
      i ∈ e.2.2 ↔ ∃ c ∈ combos, subsetValue pts c = some e.1 ∧ i ∈ c) ∧
    (∀ v : ℤ, (∃ e ∈ buildTally pts combos, e.1 = v) ↔
      ∃ c ∈ combos, subsetValue pts c = some v) ∧
    (buildTally pts combos).Pairwise (fun e e' =>
      (combos.filterMap (subsetValue pts)).indexOf e.1 <
        (combos.filterMap (subsetValue pts)).indexOf e'.1) := by
  induction combos using List.reverseRecOn with
  | nil =>
    refine ⟨by simp [buildTally], ?_, ?_, ?_, ?_⟩ <;> simp [buildTally]
  | append_singleton l c ih =>
    obtain ⟨ih1, ih2, ih3, ih4, ih5⟩ := ih
    cases hc : subsetValue pts c with
    | none =>
      rw [buildTally_append_none l hc]
      have hsv : (l ++ [c]).filterMap (subsetValue pts) =
          l.filterMap (subsetValue pts) := by
        rw [List.filterMap_append]
        simp [hc]
      refine ⟨ih1, ?_, ?_, ?_, ?_⟩
      · intro e he
        rw [List.countP_append]
        have h0 : List.countP
            (fun u => decide (subsetValue pts u = some e.1)) [c] = 0 := by
          simp [hc]
        rw [h0, Nat.add_zero]
        exact ih2 e he
      · intro e he i
        rw [ih3 e he i]
        constructor
        · rintro ⟨u, hu, h⟩
          exact ⟨u, List.mem_append_left _ hu, h⟩
        · rintro ⟨u, hu, hv, hi⟩
          rcases List.mem_append.mp hu with h | h
          · exact ⟨u, h, hv, hi⟩
          · rw [List.mem_singleton.mp h, hc] at hv
            cases hv
      · intro v
        rw [ih4 v]
        constructor
        · rintro ⟨u, hu, h⟩
          exact ⟨u, List.mem_append_left _ hu, h⟩
        · rintro ⟨u, hu, hv⟩
          rcases List.mem_append.mp hu with h | h
          · exact ⟨u, h, hv⟩
          · rw [List.mem_singleton.mp h, hc] at hv
            cases hv
      · rw [hsv]
        exact ih5
    | some v0 =>
      rw [buildTally_append_some l hc]
      have hsv : (l ++ [c]).filterMap (subsetValue pts) =
          l.filterMap (subsetValue pts) ++ [v0] := by
        rw [List.filterMap_append]
        simp [hc]
      have hkey_sv : ∀ e ∈ buildTally pts l,
          e.1 ∈ l.filterMap (subsetValue pts) := by
        intro e he
        obtain ⟨u, hu, huv⟩ := (ih4 e.1).mp ⟨e, he, rfl⟩
        exact List.mem_filterMap.mpr ⟨u, hu, huv⟩
      by_cases hfresh : ∃ e₀ ∈ buildTally pts l, e₀.1 = v0
      · rw [tallyAdd_update ih1 hfresh]
        have hkeys : ((buildTally pts l).map (fun e =>
            if e.1 = v0 then (v0, e.2.1 + 1, e.2.2 ∪ c.toFinset) else e)).map
              (fun e => e.1) = (buildTally pts l).map (fun e => e.1) := by
          rw [List.map_map]
          refine List.map_congr_left ?_
          intro e _
          by_cases h : e.1 = v0
          · simp [h]
          · simp [h]
        refine ⟨by rw [hkeys]; exact ih1, ?_, ?_, ?_, ?_⟩
        · intro e' he'
          obtain ⟨e, he, rfl⟩ := List.mem_map.mp he'
          rw [List.countP_append]
          have hcount := ih2 e he
          by_cases h : e.1 = v0
          · rw [if_pos h]
            dsimp only
            have h1 : List.countP
                (fun u => decide (subsetValue pts u = some v0)) [c] = 1 := by
              simp [hc]
            rw [h1, ← h, hcount]
          · rw [if_neg h]
            have h0 : List.countP
                (fun u => decide (subsetValue pts u = some e.1)) [c] = 0 := by
              simp [hc]
              intro hv
              exact absurd hv.symm h
            rw [h0, Nat.add_zero]
            exact hcount
        · intro e' he' i
          obtain ⟨e, he, rfl⟩ := List.mem_map.mp he'
          have hmem := ih3 e he
          by_cases h : e.1 = v0
          · rw [if_pos h]
            dsimp only
            rw [Finset.mem_union, hmem i, List.mem_toFinset]
            constructor
            · rintro (⟨u, hu, hv, hi⟩ | hi)
              · refine ⟨u, List.mem_append_left _ hu, ?_, hi⟩
                rw [← h]
                exact hv
              · exact ⟨c, List.mem_append_right _ (List.mem_singleton.mpr rfl),
                  hc, hi⟩
            · rintro ⟨u, hu, hv, hi⟩
              rcases List.mem_append.mp hu with hul | huc
              · refine Or.inl ⟨u, hul, ?_, hi⟩
                rw [h]
                exact hv
              · rw [List.mem_singleton.mp huc] at hi
                exact Or.inr hi
          · rw [if_neg h]
            rw [hmem i]
            constructor
            · rintro ⟨u, hu, hv, hi⟩
              exact ⟨u, List.mem_append_left _ hu, hv, hi⟩
            · rintro ⟨u, hu, hv, hi⟩
              rcases List.mem_append.mp hu with hul | huc
              · exact ⟨u, hul, hv, hi⟩
              · rw [List.mem_singleton.mp huc, hc] at hv
                cases hv
                exact absurd rfl h
        · intro v
          constructor
          · rintro ⟨e', he', hv⟩
            obtain ⟨e, he, rfl⟩ := List.mem_map.mp he'
            by_cases h : e.1 = v0
            · rw [if_pos h] at hv
              obtain ⟨u, hu, huv⟩ := (ih4 v).mp ⟨e, he, by rw [h]; exact hv⟩
              exact ⟨u, List.mem_append_left _ hu, huv⟩
            · rw [if_neg h] at hv
              obtain ⟨u, hu, huv⟩ := (ih4 v).mp ⟨e, he, hv⟩
              exact ⟨u, List.mem_append_left _ hu, huv⟩
          · rintro ⟨u, hu, huv⟩
            rcases List.mem_append.mp hu with hul | huc
            · obtain ⟨e, he, hev⟩ := (ih4 v).mpr ⟨u, hul, huv⟩
              refine ⟨if e.1 = v0 then (v0, e.2.1 + 1, e.2.2 ∪ c.toFinset) else e,
                List.mem_map.mpr ⟨e, he, rfl⟩, ?_⟩
              by_cases h : e.1 = v0
              · rw [if_pos h, ← h, hev]
              · rw [if_neg h]
                exact hev
            · rw [List.mem_singleton.mp huc, hc] at huv
              cases huv
              obtain ⟨e₀, he₀, hev⟩ := hfresh
              refine ⟨if e₀.1 = v0 then (v0, e₀.2.1 + 1, e₀.2.2 ∪ c.toFinset)
                  else e₀, List.mem_map.mpr ⟨e₀, he₀, rfl⟩, ?_⟩
              rw [if_pos hev]
        · rw [hsv]
          have hrel : ∀ a ∈ buildTally pts l, ∀ b ∈ buildTally pts l,
              ((l.filterMap (subsetValue pts)).indexOf a.1 <
                (l.filterMap (subsetValue pts)).indexOf b.1) →
              ((l.filterMap (subsetValue pts) ++ [v0]).indexOf
                  ((if a.1 = v0 then (v0, a.2.1 + 1, a.2.2 ∪ c.toFinset)
                    else a)).1 <
                (l.filterMap (subsetValue pts) ++ [v0]).indexOf
                  ((if b.1 = v0 then (v0, b.2.1 + 1, b.2.2 ∪ c.toFinset)
                    else b)).1) := by
            intro a ha b hb hab
            have hka : ((if a.1 = v0 then (v0, a.2.1 + 1, a.2.2 ∪ c.toFinset)
                else a)).1 = a.1 := by
              by_cases h : a.1 = v0
              · simp [h]
              · simp [h]
            have hkb : ((if b.1 = v0 then (v0, b.2.1 + 1, b.2.2 ∪ c.toFinset)
                else b)).1 = b.1 := by
              by_cases h : b.1 = v0
              · simp [h]
              · simp [h]
            rw [hka, hkb, List.indexOf_append_of_mem (hkey_sv a ha),
              List.indexOf_append_of_mem (hkey_sv b hb)]
            exact hab
          rw [List.pairwise_map]
          refine List.Pairwise.imp_of_mem ?_ ih5
          intro a b ha hb hab
          exact hrel a ha b hb hab
      · push_neg at hfresh
        rw [tallyAdd_new hfresh]
        have hv0new : v0 ∉ l.filterMap (subsetValue pts) := by
          intro hmem
          obtain ⟨u, hu, huv⟩ := List.mem_filterMap.mp hmem
          obtain ⟨e, he, hev⟩ := (ih4 v0).mpr ⟨u, hu, huv⟩
          exact hfresh e he hev
        refine ⟨?_, ?_, ?_, ?_, ?_⟩
        · rw [List.map_append, List.nodup_append]
          refine ⟨ih1, by simp, ?_⟩
          intro x hx hx'
          obtain ⟨e, he, rfl⟩ := List.mem_map.mp hx
          simp only [List.map_cons, List.map_nil, List.mem_singleton] at hx'
          exact hfresh e he hx'
        · intro e' he'
          rcases List.mem_append.mp he' with hl | hr
          · rw [List.countP_append]
            have h0 : List.countP
                (fun u => decide (subsetValue pts u = some e'.1)) [c] = 0 := by
              simp [hc]
              intro hv
              exact hfresh e' hl hv.symm
            rw [h0, Nat.add_zero]
            exact ih2 e' hl
          · have hr' : e' = (v0, 1, c.toFinset) := List.mem_singleton.mp hr
            subst hr'
            dsimp only
            rw [List.countP_append]
            have h0 : List.countP
                (fun u => decide (subsetValue pts u = some v0)) l = 0 := by
              rw [List.countP_eq_zero]
              intro u hu
              simp only [decide_eq_true_eq]
              intro hv
              exact hv0new (List.mem_filterMap.mpr ⟨u, hu, hv⟩)
            have h1 : List.countP
                (fun u => decide (subsetValue pts u = some v0)) [c] = 1 := by
              simp [hc]
            rw [h0, h1]
        · intro e' he' i
          rcases List.mem_append.mp he' with hl | hr
          · rw [ih3 e' hl i]
            constructor
            · rintro ⟨u, hu, hv, hi⟩
              exact ⟨u, List.mem_append_left _ hu, hv, hi⟩
            · rintro ⟨u, hu, hv, hi⟩
              rcases List.mem_append.mp hu with hul | huc
              · exact ⟨u, hul, hv, hi⟩
              · rw [List.mem_singleton.mp huc, hc] at hv
                cases hv
                exact absurd rfl (hfresh e' hl)
          · have hr' : e' = (v0, 1, c.toFinset) := List.mem_singleton.mp hr
            subst hr'
            dsimp only
            rw [List.mem_toFinset]
            constructor
            · intro hi
              exact ⟨c, List.mem_append_right _ (List.mem_singleton.mpr rfl),
                hc, hi⟩
            · rintro ⟨u, hu, hv, hi⟩
              rcases List.mem_append.mp hu with hul | huc
              · exact absurd (List.mem_filterMap.mpr ⟨u, hul, hv⟩) hv0new
              · rw [List.mem_singleton.mp huc] at hi
                exact hi
        · intro v
          constructor
          · rintro ⟨e, he, rfl⟩
            rcases List.mem_append.mp he with hl | hr
            · obtain ⟨u, hu, hv⟩ := (ih4 e.1).mp ⟨e, hl, rfl⟩
              exact ⟨u, List.mem_append_left _ hu, hv⟩
            · rw [List.mem_singleton.mp hr]
              exact ⟨c, List.mem_append_right _ (List.mem_singleton.mpr rfl),
                hc⟩
          · rintro ⟨u, hu, hv⟩
            rcases List.mem_append.mp hu with hul | huc
            · obtain ⟨e, he, hev⟩ := (ih4 v).mpr ⟨u, hul, hv⟩
              exact ⟨e, List.mem_append_left _ he, hev⟩
            · rw [List.mem_singleton.mp huc, hc] at hv
              cases hv
              exact ⟨(v0, 1, c.toFinset),
                List.mem_append_right _ (List.mem_singleton.mpr rfl), rfl⟩
        · rw [hsv, List.pairwise_append]
          refine ⟨?_, by simp, ?_⟩
          · refine List.Pairwise.imp_of_mem ?_ ih5
            intro a b ha hb hab
            rw [List.indexOf_append_of_mem (hkey_sv a ha),
              List.indexOf_append_of_mem (hkey_sv b hb)]
            exact hab
          · intro a ha b hb
            rw [List.mem_singleton.mp hb]
            dsimp only
            rw [List.indexOf_append_of_mem (hkey_sv a ha),
              List.indexOf_append_of_not_mem hv0new, List.indexOf_cons_self]
            have h3 := List.indexOf_lt_length.mpr (hkey_sv a ha)
            omega

theorem pickBest_nil : pickBest [] = (none, -1) := rfl

theorem pickBest_append (t : List (ℤ × ℕ × Finset ℕ)) (e : ℤ × ℕ × Finset ℕ) :
    pickBest (t ++ [e]) =
      if ((e.2.1 : ℤ) > (pickBest t).2) then (some e.1, (e.2.1 : ℤ))
      else pickBest t := by
  unfold pickBest
  rw [List.foldl_append]
  rfl

/-- The winner scan replaces the best only on strict improvement, so it
returns the first entry of the tally attaining the maximal count: all
entries before it count strictly less, all entries after count at
most as much. -/
theorem pickBest_split : ∀ t : List (ℤ × ℕ × Finset ℕ), t ≠ [] →
    ∃ t₁ w t₂, t = t₁ ++ w :: t₂ ∧ pickBest t = (some w.1, (w.2.1 : ℤ)) ∧
      (∀ e ∈ t₁, e.2.1 < w.2.1) ∧ ∀ e ∈ t₂, e.2.1 ≤ w.2.1 := by
  intro t
  induction t using List.reverseRecOn with
  | nil => intro h; exact absurd rfl h
  | append_singleton l e ih =>
    intro _
    rcases eq_or_ne l [] with rfl | hl
    · refine ⟨[], e, [], by simp, ?_, by simp, by simp⟩
      rw [pickBest_append, pickBest_nil]
      simp only [gt_iff_lt]
      rw [if_pos (show ((none : Option ℤ), (-1 : ℤ)).2 < ((e.2.1 : ℕ) : ℤ) from by
        show (-1 : ℤ) < ((e.2.1 : ℕ) : ℤ); omega)]
    · obtain ⟨t₁, w, t₂, hsplit, hpb, h₁, h₂⟩ := ih hl
      by_cases hgt : w.2.1 < e.2.1
      · refine ⟨l, e, [], by simp, ?_, ?_, by simp⟩
        · rw [pickBest_append, hpb]
          simp only [gt_iff_lt]
          rw [if_pos (show ((some w.1 : Option ℤ), ((w.2.1 : ℕ) : ℤ)).2 <
              ((e.2.1 : ℕ) : ℤ) from by
            show ((w.2.1 : ℕ) : ℤ) < ((e.2.1 : ℕ) : ℤ); exact_mod_cast hgt)]
        · intro a ha
          rw [hsplit] at ha
          rcases List.mem_append.mp ha with ha | ha
          · exact lt_trans (h₁ a ha) hgt
          · rcases List.mem_cons.mp ha with rfl | ha
            · exact hgt
            · exact lt_of_le_of_lt (h₂ a ha) hgt
      · refine ⟨t₁, w, t₂ ++ [e], by rw [hsplit]; simp, ?_, h₁, ?_⟩
        · rw [pickBest_append, hpb]
          simp only [gt_iff_lt]
          rw [if_neg (show ¬ ((some w.1 : Option ℤ), ((w.2.1 : ℕ) : ℤ)).2 <
              ((e.2.1 : ℕ) : ℤ) from by
            show ¬ ((w.2.1 : ℕ) : ℤ) < ((e.2.1 : ℕ) : ℤ); exact_mod_cast hgt)]
        · intro a ha
          rcases List.mem_append.mp ha with ha | ha
          · exact h₂ a ha
          · rw [List.mem_singleton.mp ha]
            exact Nat.le_of_not_lt hgt

/-- If an entry's count strictly exceeds the count of every entry with a
different key, the scan picks its key, wherever it sits in the tally. -/
theorem pickBest_strict {t : List (ℤ × ℕ × Finset ℕ)} {e : ℤ × ℕ × Finset ℕ}
    (he : e ∈ t) (hmax : ∀ e' ∈ t, e'.1 ≠ e.1 → e'.2.1 < e.2.1) :
    (pickBest t).1 = some e.1 := by
  obtain ⟨t₁, w, t₂, hsplit, hpb, h₁, h₂⟩ :=
    pickBest_split t (by rintro rfl; cases he)
  rw [hpb]
  by_cases hw : w.1 = e.1
  · rw [show ((some w.1 : Option ℤ), ((w.2.1 : ℕ) : ℤ)).1 = some w.1 from rfl, hw]
  · exfalso
    have hwmem : w ∈ t := by
      rw [hsplit]; exact List.mem_append_right _ (List.mem_cons_self _ _)
    have hwlt : w.2.1 < e.2.1 := hmax w hwmem hw
    rw [hsplit] at he
    rcases List.mem_append.mp he with h | h
    · exact absurd (h₁ e h) (by omega)
    · rcases List.mem_cons.mp h with rfl | h
      · exact hw rfl
      · exact absurd (h₂ e h) (by omega)

/-- Inversion of a successful reconstruction: the tally is nonempty, the
winner is the scan's pick, and the outliers are the points of `0..m-1`
outside the winning entry's member set. -/
theorem reconstructAux_inv {combos : List (List ℕ)} {pts : List (ℤ × ℤ)}
    {m : ℕ} {v : ℤ} {outs : List (ℤ × ℤ)}
    (h : reconstructAux combos pts m = some (v, outs)) :
    buildTally pts combos ≠ [] ∧
    (pickBest (buildTally pts combos)).1 = some v ∧
    outs = ((List.range m).filter (fun i =>
      ¬ i ∈ ((((buildTally pts combos).find? (fun e => e.1 = v)).map
        (fun e => e.2.2)).getD ∅))).map (fun i => pts.getD i (0, 0)) := by
  simp only [reconstructAux] at h
  by_cases hT : buildTally pts combos = []
  · rw [hT] at h
    simp at h
  · rw [if_neg (by simp [hT])] at h
    refine ⟨hT, ?_⟩
    cases hpk : (pickBest (buildTally pts combos)).1 with
    | none =>
      rw [hpk] at h
      simp at h
    | some b =>
      rw [hpk] at h
      have h' : some (b, ((List.range m).filter (fun i =>
          ¬ i ∈ ((((buildTally pts combos).find? (fun e => e.1 = b)).map
            (fun e => e.2.2)).getD ∅))).map (fun i => pts.getD i (0, 0))) =
          some (v, outs) := h
      rw [Option.some.injEq, Prod.mk.injEq] at h'
      obtain ⟨rfl, houts⟩ := h'
      exact ⟨rfl, houts.symm⟩

/-- C5: a subset whose interpolation fails is skipped and contributes
nothing to the tally (the tally built from all enumerated subsets equals
the tally built from the successful ones alone), the reconstruction
fails with the no-valid-subset error exactly when every enumerated
subset failed, and otherwise it produces a secret. -/
theorem skip_failed_subsets (pts : List (ℤ × ℤ)) (combos : List (List ℕ))
    (m : ℕ) :
    buildTally pts combos =
      buildTally pts (combos.filter (fun c => (subsetValue pts c).isSome)) ∧
    (reconstructAux combos pts m = none ↔
      ∀ c ∈ combos, subsetValue pts c = none) ∧
    ((∃ c ∈ combos, (subsetValue pts c).isSome) →
      ∃ v outs, reconstructAux combos pts m = some (v, outs)) := by
  have hsome : buildTally pts combos ≠ [] →
      ∃ v outs, reconstructAux combos pts m = some (v, outs) := by
    intro hT
    obtain ⟨t₁, w, t₂, hsplit, hpb, h₁, h₂⟩ := pickBest_split _ hT
    refine ⟨w.1, ((List.range m).filter (fun i =>
      ¬ i ∈ ((((buildTally pts combos).find? (fun e => e.1 = w.1)).map
        (fun e => e.2.2)).getD ∅))).map (fun i => pts.getD i (0, 0)), ?_⟩
    simp only [reconstructAux]
    rw [if_neg (by simp [hT]), show (pickBest (buildTally pts combos)).1 =
      some w.1 from by rw [hpb]]
  refine ⟨buildTally_filter pts combos [], ?_, ?_⟩
  · constructor
    · intro h
      by_contra hall
      push_neg at hall
      obtain ⟨c, hc, hcne⟩ := hall
      have hT : buildTally pts combos ≠ [] := by
        intro hTnil
        exact hcne (((buildTally_eq_nil pts combos []).mp hTnil).2 c hc)
      obtain ⟨v, outs, hv⟩ := hsome hT
      rw [h] at hv
      cases hv
    · intro hall
      have hT : buildTally pts combos = [] :=
        (buildTally_eq_nil pts combos []).mpr ⟨rfl, hall⟩
      simp only [reconstructAux]
      rw [hT]
      rfl
  · rintro ⟨c, hc, hcs⟩
    refine hsome ?_
    intro hTnil
    have := ((buildTally_eq_nil pts combos []).mp hTnil).2 c hc
    rw [this] at hcs
    cases hcs

/-- C4: when the reconstruction succeeds with winning secret `v`, the
number of enumerated subsets producing `v` is at least the number
producing any value `w`, and when a distinct `w` ties with `v`, the
value `v` was produced earlier in the enumeration order than `w`
(first-seen-wins, because the scan replaces the best only on strict
improvement). -/
theorem winner_selection (combos : List (List ℕ)) (pts : List (ℤ × ℤ))
    (m : ℕ) (v : ℤ) (outs : List (ℤ × ℤ))
    (h : reconstructAux combos pts m = some (v, outs)) :
    (∃ c ∈ combos, subsetValue pts c = some v) ∧
    (∀ w : ℤ,
      combos.countP (fun c => decide (subsetValue pts c = some w)) ≤
        combos.countP (fun c => decide (subsetValue pts c = some v))) ∧
    (∀ w : ℤ, w ≠ v →
      combos.countP (fun c => decide (subsetValue pts c = some w)) =
        combos.countP (fun c => decide (subsetValue pts c = some v)) →
      (∃ c ∈ combos, subsetValue pts c = some w) →
      (combos.filterMap (subsetValue pts)).indexOf v <
        (combos.filterMap (subsetValue pts)).indexOf w) := by
  obtain ⟨hT, hpk, _⟩ := reconstructAux_inv h
  obtain ⟨hnd, hcnt, hmemM, hkeys, hord⟩ := buildTally_spec pts combos
  obtain ⟨t₁, w0, t₂, hsplit, hpb, h₁, h₂⟩ := pickBest_split _ hT
  have hw : w0.1 = v := by
    rw [hpb] at hpk
    exact Option.some.inj hpk
  have hwmem : w0 ∈ buildTally pts combos := by
    rw [hsplit]; exact List.mem_append_right _ (List.mem_cons_self _ _)
  have hcv : combos.countP (fun c => decide (subsetValue pts c = some v)) =
      w0.2.1 := by
    rw [hcnt w0 hwmem, hw]
  refine ⟨(hkeys v).mp ⟨w0, hwmem, hw⟩, ?_, ?_⟩
  · intro w
    by_cases hex : ∃ c ∈ combos, subsetValue pts c = some w
    · obtain ⟨e, he, hkey⟩ := (hkeys w).mpr hex
      have hcw : combos.countP (fun c => decide (subsetValue pts c = some w)) =
          e.2.1 := by
        rw [hcnt e he, hkey]
      rw [hcw, hcv]
      have he' := he
      rw [hsplit] at he'
      rcases List.mem_append.mp he' with h' | h'
      · exact le_of_lt (h₁ e h')
      · rcases List.mem_cons.mp h' with rfl | h'
        · exact le_refl _
        · exact h₂ e h'
    · have h0 : combos.countP (fun c => decide (subsetValue pts c = some w)) =
          0 := by
        rw [List.countP_eq_zero]
        intro c hc
        simp only [decide_eq_true_eq]
        intro hv
        exact hex ⟨c, hc, hv⟩
      rw [h0]
      exact Nat.zero_le _
  · intro w hne hcnteq hex
    obtain ⟨e, he, hkey⟩ := (hkeys w).mpr hex
    have hcw : combos.countP (fun c => decide (subsetValue pts c = some w)) =
        e.2.1 := by
      rw [hcnt e he, hkey]
    have hecount : e.2.1 = w0.2.1 := by
      rw [← hcw, hcnteq, hcv]
    have he' := he
    rw [hsplit] at he'
    have hmem2 : e ∈ t₂ := by
      rcases List.mem_append.mp he' with h' | h'
      · exact absurd (h₁ e h') (by omega)
      · rcases List.mem_cons.mp h' with rfl | h'
        · exact absurd (hkey.symm.trans hw) hne
        · exact h'
    rw [hsplit] at hord
    have hR := (List.pairwise_cons.mp
      (List.pairwise_append.mp hord).2.1).1 e hmem2
    rw [hw, hkey] at hR
    exact hR

/-- Witness for C4: subsets `[0,1]` and `[2,3]` of the four points
`(1,1), (2,2), (1,4), (2,5)` produce the tied values `0` and `3` (one
subset each); the winner is `0`, the value seen first. -/
theorem winner_selection_witness :
    reconstructAux [[0, 1], [2, 3]] [(1, 1), (2, 2), (1, 4), (2, 5)] 4 =
      some (0, [(1, 4), (2, 5)]) ∧
    ((∃ c ∈ [[0, 1], [2, 3]],
        subsetValue [(1, 1), (2, 2), (1, 4), (2, 5)] c = some 0) ∧
    (∀ w : ℤ,
      ([[0, 1], [2, 3]] : List (List ℕ)).countP
          (fun c => decide (subsetValue [(1, 1), (2, 2), (1, 4), (2, 5)] c =
            some w)) ≤
        ([[0, 1], [2, 3]] : List (List ℕ)).countP
          (fun c => decide (subsetValue [(1, 1), (2, 2), (1, 4), (2, 5)] c =
            some 0))) ∧
    (∀ w : ℤ, w ≠ 0 →
      ([[0, 1], [2, 3]] : List (List ℕ)).countP
          (fun c => decide (subsetValue [(1, 1), (2, 2), (1, 4), (2, 5)] c =
            some w)) =
        ([[0, 1], [2, 3]] : List (List ℕ)).countP
          (fun c => decide (subsetValue [(1, 1), (2, 2), (1, 4), (2, 5)] c =
            some 0)) →
      (∃ c ∈ [[0, 1], [2, 3]],
        subsetValue [(1, 1), (2, 2), (1, 4), (2, 5)] c = some w) →
      (([[0, 1], [2, 3]] : List (List ℕ)).filterMap
          (subsetValue [(1, 1), (2, 2), (1, 4), (2, 5)])).indexOf 0 <
        (([[0, 1], [2, 3]] : List (List ℕ)).filterMap
          (subsetValue [(1, 1), (2, 2), (1, 4), (2, 5)])).indexOf w)) :=
  ⟨by decide,
    winner_selection [[0, 1], [2, 3]] [(1, 1), (2, 2), (1, 4), (2, 5)] 4
      0 [(1, 4), (2, 5)] (by decide)⟩

/-! ### Robust reconstruction: counting subsets through one bad index -/

theorem combosList_countP_avoid : ∀ m k b : ℕ, b < m →
    (combosList m k).countP (fun c => decide (b ∉ c)) =
      Nat.choose (m - 1) k := by
  intro m
  induction m with
  | zero => intro k b hb; exact absurd hb (Nat.not_lt_zero b)
  | succ m ih =>
    intro k b hb
    cases k with
    | zero =>
      rw [combosList_zero]
      simp
    | succ k =>
      rw [combosList_succ_succ, List.countP_append, List.countP_map,
        List.countP_map]
      cases b with
      | zero =>
        have h1 : (combosList m k).countP
            ((fun c => decide (0 ∉ c)) ∘ (fun c => 0 :: c.map (· + 1))) =
            0 := by
          rw [List.countP_eq_zero]
          intro c _
          simp
        have h2 : (combosList m (k + 1)).countP
            ((fun c => decide (0 ∉ c)) ∘ (List.map (· + 1))) =
            (combosList m (k + 1)).length := by
          rw [List.countP_eq_length]
          intro c _
          simp
        rw [h1, h2, combosList_length]
        simp
      | succ b =>
        have hb' : b < m := by omega
        have h1 : (combosList m k).countP
            ((fun c => decide (b + 1 ∉ c)) ∘ (fun c => 0 :: c.map (· + 1))) =
            (combosList m k).countP (fun c => decide (b ∉ c)) := by
          refine List.countP_congr ?_
          intro c _
          simp only [Function.comp_apply, decide_eq_true_eq]
          constructor
          · intro h hbc
            exact h (List.mem_cons_of_mem _ (List.mem_map.mpr ⟨b, hbc, rfl⟩))
          · intro h hmem
            rcases List.mem_cons.mp hmem with h0 | hmem
            · exact absurd h0 (by omega)
            · obtain ⟨y, hy, hy1⟩ := List.mem_map.mp hmem
              have hyb : y = b := by omega
              exact h (hyb ▸ hy)
        have h2 : (combosList m (k + 1)).countP
            ((fun c => decide (b + 1 ∉ c)) ∘ (List.map (· + 1))) =
            (combosList m (k + 1)).countP (fun c => decide (b ∉ c)) := by
          refine List.countP_congr ?_
          intro c _
          simp only [Function.comp_apply, decide_eq_true_eq]
          constructor
          · intro h hbc
            exact h (List.mem_map.mpr ⟨b, hbc, rfl⟩)
          · intro h hmem
            obtain ⟨y, hy, hy1⟩ := List.mem_map.mp hmem
            have hyb : y = b := by omega
            exact h (hyb ▸ hy)
        obtain ⟨m', rfl⟩ : ∃ m', m = m' + 1 := ⟨m - 1, by omega⟩
        rw [h1, h2, ih k b hb', ih (k + 1) b hb']
        simp only [Nat.add_sub_cancel]
        exact (Nat.choose_succ_succ m' k).symm

theorem countP_split {α : Type} (p : α → Prop) [DecidablePred p] :
    ∀ l : List α, l.countP (fun a => decide (p a)) +
      l.countP (fun a => decide (¬ p a)) = l.length := by
  intro l
  induction l with
  | nil => rfl
  | cons a t ih =>
    by_cases h : p a
    · rw [List.countP_cons_of_pos _ _ (by simp [h]),
        List.countP_cons_of_neg _ _ (by simp [h]), List.length_cons]
      omega
    · rw [List.countP_cons_of_neg _ _ (by simp [h]),
        List.countP_cons_of_pos _ _ (by simp [h]), List.length_cons]
      omega

theorem combosList_countP_mem (m k b : ℕ) (hb : b < m) (hk : 1 ≤ k) :
    (combosList m k).countP (fun c => decide (b ∈ c)) =
      Nat.choose m k - Nat.choose (m - 1) k := by
  have hsplit := countP_split (fun c : List ℕ => b ∈ c) (combosList m k)
  simp only [] at hsplit
  rw [combosList_countP_avoid m k b hb, combosList_length] at hsplit
  omega

theorem choose_pred_lt {n k : ℕ} (hk : 1 ≤ k) (hn : 2 * k ≤ n) :
    Nat.choose n (k - 1) < Nat.choose n k := by
  obtain ⟨j, rfl⟩ : ∃ j, k = j + 1 := ⟨k - 1, by omega⟩
  simp only [Nat.add_sub_cancel]
  have h := Nat.choose_succ_right_eq n j
  have hpos : 0 < Nat.choose n (j + 1) := Nat.choose_pos (by omega)
  by_contra hle
  push_neg at hle
  have hnj : j + 2 ≤ n - j := by omega
  have h1 : Nat.choose n (j + 1) * (j + 2) ≤ Nat.choose n (j + 1) * (j + 1) :=
    calc Nat.choose n (j + 1) * (j + 2)
        ≤ Nat.choose n j * (n - j) := Nat.mul_le_mul hle hnj
      _ = Nat.choose n (j + 1) * (j + 1) := h.symm
  have h2 : j + 2 ≤ j + 1 := Nat.le_of_mul_le_mul_left h1 hpos
  omega

theorem mapM_get?_some {pts : List (ℤ × ℤ)} :
    ∀ {combo : List ℕ}, (∀ i ∈ combo, i < pts.length) →
      combo.mapM (fun j => pts.get? j) =
        some (combo.map (fun i => pts.getD i (0, 0))) := by
  intro combo
  induction combo with
  | nil => intro _; rfl
  | cons a rest ih =>
    intro hb
    have ha : pts.get? a = some (pts.getD a (0, 0)) := by
      rw [List.get?_eq_getElem?,
        List.getElem?_eq_getElem (hb a (List.mem_cons_self _ _)),
        List.getD_eq_getElem _ _ (hb a (List.mem_cons_self _ _))]
    rw [List.mapM_cons, ha, ih (fun i hi => hb i (List.mem_cons_of_mem _ hi))]
    rfl

/-- A subset of points avoiding the perturbed index lies entirely on the
polynomial, so its interpolation yields exactly the constant term. -/
theorem subsetValue_good {pts : List (ℤ × ℤ)} {c : List ℤ} {b k : ℕ}
    (hk : 0 < k) (hclen : c.length = k)
    (hxnd : (pts.map Prod.fst).Nodup)
    (hcurve : ∀ i, i < pts.length → i ≠ b →
      (pts.getD i (0, 0)).2 = evalPoly c (pts.getD i (0, 0)).1)
    {combo : List ℕ} (hlen : combo.length = k) (hnd : combo.Nodup)
    (hbound : ∀ i ∈ combo, i < pts.length) (hb : b ∉ combo) :
    subsetValue pts combo = some (evalPoly c 0) := by
  unfold subsetValue
  rw [mapM_get?_some hbound, Option.some_bind]
  refine interpolate_on_poly ?_ ?_ ?_ ?_
  · rw [List.length_map, hlen]; exact hk
  · rw [List.length_map, hlen, hclen]
  · rw [List.map_map]
    refine List.Nodup.map_on ?_ hnd
    intro i hi j hj heq
    by_contra hij
    exact nodup_fst_pairwise hxnd i j (hbound i hi) (hbound j hj) hij heq
  · intro p hp
    obtain ⟨i, hi, rfl⟩ := List.mem_map.mp hp
    have hib : i ≠ b := fun h => hb (h ▸ hi)
    exact hcurve i (hbound i hi) hib

/-- The geometric core of the robustness argument: a list of points with
pairwise distinct `x` values, one of which lies off the polynomial while
all others lie on it and have nonzero `x`, cannot interpolate at zero to
the polynomial's constant term (two degree-bounded polynomials agreeing
at `|qts|` distinct values would be equal). -/
theorem interpolate_off_poly {qts : List (ℤ × ℤ)} {c : List ℤ} {p : ℤ × ℤ}
    (hclen : c.length = qts.length)
    (hx : ∀ i j : ℕ, i < qts.length → j < qts.length → i ≠ j →
      (qts.getD i (0, 0)).1 ≠ (qts.getD j (0, 0)).1)
    (hp : p ∈ qts)
    (hbadp : p.2 ≠ evalPoly c p.1)
    (hgood : ∀ q ∈ qts, q ≠ p → q.2 = evalPoly c q.1 ∧ q.1 ≠ 0) :
    interpolateAtZero qts ≠ some (evalPoly c 0) := by
  intro hsv
  have hq := (interpolateAtZero_eq_some_iff hx (evalPoly c 0)).mp hsv
  rw [rationalLagrange_eq_eval] at hq
  obtain ⟨⟨ip, hip⟩, hgetp0⟩ := List.mem_iff_get.mp hp
  have hgetp : qts.getD ip (0, 0) = p := by
    rw [List.getD_eq_getElem _ _ hip]
    exact hgetp0
  have hinjx : Set.InjOn (fun i => ((qts.getD i (0, 0)).1 : ℚ))
      (Finset.range qts.length) := by
    intro i hi j hj hval
    have hval' : ((qts.getD i (0, 0)).1 : ℚ) = ((qts.getD j (0, 0)).1 : ℚ) :=
      hval
    by_contra hij
    refine hx i j ?_ ?_ hij (by exact_mod_cast hval')
    · simpa using hi
    · simpa using hj
  have hqdeg := Lagrange.degree_interpolate_lt
      (fun i => ((qts.getD i (0, 0)).2 : ℚ)) hinjx
  have hqnode : ∀ i ∈ Finset.range qts.length,
      (Lagrange.interpolate (Finset.range qts.length)
        (fun i => ((qts.getD i (0, 0)).1 : ℚ))
        (fun i => ((qts.getD i (0, 0)).2 : ℚ))).eval
          ((qts.getD i (0, 0)).1 : ℚ) = ((qts.getD i (0, 0)).2 : ℚ) := by
    intro i hi
    exact Lagrange.eval_interpolate_at_node _ hinjx hi
  have hgoodi : ∀ i, i < qts.length → i ≠ ip →
      (qts.getD i (0, 0)).2 = evalPoly c (qts.getD i (0, 0)).1 ∧
      (qts.getD i (0, 0)).1 ≠ 0 := by
    intro i hi hip'
    refine hgood _ ?_ ?_
    · rw [List.getD_eq_getElem _ _ hi]
      exact List.getElem_mem _
    · intro hcontra
      exact (hx i (ip) hi hip hip') (by rw [hcontra, hgetp])
  have hinjv : Set.InjOn (fun i => if i = ip then (0 : ℚ)
      else ((qts.getD i (0, 0)).1 : ℚ)) (Finset.range qts.length) := by
    intro i hi j hj hval
    have hval' : (if i = ip then (0 : ℚ)
        else ((qts.getD i (0, 0)).1 : ℚ)) =
        (if j = ip then (0 : ℚ)
        else ((qts.getD j (0, 0)).1 : ℚ)) := hval
    by_cases hi' : i = ip <;> by_cases hj' : j = ip
    · rw [hi', hj']
    · exfalso
      rw [if_pos hi', if_neg hj'] at hval'
      exact (hgoodi j (by simpa using hj) hj').2 (by exact_mod_cast hval'.symm)
    · exfalso
      rw [if_neg hi', if_pos hj'] at hval'
      exact (hgoodi i (by simpa using hi) hi').2 (by exact_mod_cast hval')
    · rw [if_neg hi', if_neg hj'] at hval'
      exact hinjx hi hj hval'
  have hhdeg : (hornerQ c).degree < (Finset.range qts.length).card := by
    rw [Finset.card_range, ← hclen]
    exact hornerQ_degree c
  have hagree : ∀ i ∈ Finset.range qts.length,
      (hornerQ c).eval (if i = ip then (0 : ℚ)
        else ((qts.getD i (0, 0)).1 : ℚ)) =
      (Lagrange.interpolate (Finset.range qts.length)
        (fun i => ((qts.getD i (0, 0)).1 : ℚ))
        (fun i => ((qts.getD i (0, 0)).2 : ℚ))).eval
          (if i = ip then (0 : ℚ)
          else ((qts.getD i (0, 0)).1 : ℚ)) := by
    intro i hi
    by_cases hi' : i = ip
    · rw [if_pos hi', ← hq,
        show (0 : ℚ) = ((0 : ℤ) : ℚ) from by norm_num, hornerQ_eval]
    · rw [if_neg hi', hqnode i hi, hornerQ_eval]
      exact_mod_cast ((hgoodi i (by simpa using hi) hi').1).symm
  have e1 : hornerQ c = Lagrange.interpolate (Finset.range qts.length)
      (fun i => if i = ip then (0 : ℚ)
        else ((qts.getD i (0, 0)).1 : ℚ))
      (fun i => (Lagrange.interpolate (Finset.range qts.length)
        (fun i => ((qts.getD i (0, 0)).1 : ℚ))
        (fun i => ((qts.getD i (0, 0)).2 : ℚ))).eval
          (if i = ip then (0 : ℚ)
          else ((qts.getD i (0, 0)).1 : ℚ))) :=
    Lagrange.eq_interpolate_of_eval_eq _ hinjv hhdeg hagree
  have e2 : Lagrange.interpolate (Finset.range qts.length)
      (fun i => ((qts.getD i (0, 0)).1 : ℚ))
      (fun i => ((qts.getD i (0, 0)).2 : ℚ)) =
      Lagrange.interpolate (Finset.range qts.length)
      (fun i => if i = ip then (0 : ℚ)
        else ((qts.getD i (0, 0)).1 : ℚ))
      (fun i => (Lagrange.interpolate (Finset.range qts.length)
        (fun i => ((qts.getD i (0, 0)).1 : ℚ))
        (fun i => ((qts.getD i (0, 0)).2 : ℚ))).eval
          (if i = ip then (0 : ℚ)
          else ((qts.getD i (0, 0)).1 : ℚ))) :=
    Lagrange.eq_interpolate_of_eval_eq _ hinjv hqdeg (fun i _ => rfl)
  have heq : hornerQ c = Lagrange.interpolate (Finset.range qts.length)
      (fun i => ((qts.getD i (0, 0)).1 : ℚ))
      (fun i => ((qts.getD i (0, 0)).2 : ℚ)) := e1.trans e2.symm
  have hnodep := hqnode (ip) (Finset.mem_range.mpr hip)
  rw [← heq, hgetp, hornerQ_eval] at hnodep
  exact hbadp (by exact_mod_cast hnodep.symm)

/-- A subset through the perturbed index cannot interpolate at zero to
the constant term, when all other points lie on the polynomial away from
`x = 0`. -/
theorem subsetValue_bad {pts : List (ℤ × ℤ)} {c : List ℤ} {b k : ℕ}
    (hclen : c.length = k)
    (hxnd : (pts.map Prod.fst).Nodup)
    (hcurve : ∀ i, i < pts.length → i ≠ b →
      (pts.getD i (0, 0)).2 = evalPoly c (pts.getD i (0, 0)).1)
    (hx0 : ∀ i, i < pts.length → i ≠ b → (pts.getD i (0, 0)).1 ≠ 0)
    (hbad : (pts.getD b (0, 0)).2 ≠ evalPoly c (pts.getD b (0, 0)).1)
    {combo : List ℕ} (hlen : combo.length = k) (hnd : combo.Nodup)
    (hbound : ∀ i ∈ combo, i < pts.length) (hb : b ∈ combo) :
    subsetValue pts combo ≠ some (evalPoly c 0) := by
  intro hsv
  unfold subsetValue at hsv
  rw [mapM_get?_some hbound, Option.some_bind] at hsv
  have hsubget : ∀ (i : ℕ), i < combo.length →
      (combo.map (fun i => pts.getD i (0, 0))).getD i (0, 0) =
        pts.getD (combo.getD i 0) (0, 0) := by
    intro i h
    rw [List.getD_eq_getElem _ _ (by simpa using h), List.getElem_map,
      List.getD_eq_getElem _ _ h]
  have hmem : ∀ (i : ℕ), i < combo.length → combo.getD i 0 ∈ combo := by
    intro i h
    rw [List.getD_eq_getElem _ _ h]
    exact List.getElem_mem _
  have hxd : ∀ i j : ℕ, i < combo.length → j < combo.length → i ≠ j →
      combo.getD i 0 ≠ combo.getD j 0 := by
    intro i j hi hj hij heq
    apply hij
    have h3 : (⟨i, hi⟩ : Fin combo.length) = ⟨j, hj⟩ :=
      (List.Nodup.get_inj_iff hnd).mp (by
        rw [List.get_eq_getElem, List.get_eq_getElem,
          ← List.getD_eq_getElem combo 0 hi, ← List.getD_eq_getElem combo 0 hj]
        exact heq)
    exact congrArg Fin.val h3
  have hsubx : ∀ i j : ℕ,
      i < (combo.map (fun i => pts.getD i (0, 0))).length →
      j < (combo.map (fun i => pts.getD i (0, 0))).length → i ≠ j →
      ((combo.map (fun i => pts.getD i (0, 0))).getD i (0, 0)).1 ≠
        ((combo.map (fun i => pts.getD i (0, 0))).getD j (0, 0)).1 := by
    intro i j hi hj hij
    rw [List.length_map] at hi hj
    rw [hsubget i hi, hsubget j hj]
    exact nodup_fst_pairwise hxnd _ _ (hbound _ (hmem i hi))
      (hbound _ (hmem j hj)) (hxd i j hi hj hij)
  refine interpolate_off_poly (p := pts.getD b (0, 0)) ?_ hsubx ?_ hbad ?_ hsv
  · rw [List.length_map, hlen, hclen]
  · exact List.mem_map.mpr ⟨b, hb, rfl⟩
  · intro q hq hqp
    obtain ⟨i, hi, rfl⟩ := List.mem_map.mp hq
    have hib : i ≠ b := by
      intro h
      exact hqp (by rw [h])
    exact ⟨hcurve i (hbound i hi) hib, hx0 i (hbound i hi) hib⟩

/-- Any unperturbed index sits in some enumerated subset avoiding the
perturbed index, as long as `k` of the `m - 1` good indices suffice. -/
theorem exists_good_combo {m k b i : ℕ} (hk : 1 ≤ k) (hkm : k ≤ m - 1)
    (hb : b < m) (hi : i < m) (hib : i ≠ b) :
    ∃ combo ∈ combosList m k, b ∉ combo ∧ i ∈ combo := by
  have hiG : i ∈ (Finset.range m).erase b :=
    Finset.mem_erase.mpr ⟨hib, Finset.mem_range.mpr hi⟩
  have hGcard : ((Finset.range m).erase b).card = m - 1 := by
    rw [Finset.card_erase_of_mem (Finset.mem_range.mpr hb), Finset.card_range]
  obtain ⟨u, hsu, huG, hucard⟩ := Finset.exists_intermediate_set (k - 1)
    (by rw [hGcard, Finset.card_singleton]; omega)
    (Finset.singleton_subset_iff.mpr hiG)
  rw [Finset.card_singleton] at hucard
  refine ⟨u.sort (· ≤ ·), ?_, ?_, ?_⟩
  · refine combosList_coverage m k _ ?_ ?_ ?_
    · rw [Finset.length_sort, hucard]; omega
    · exact Finset.sort_sorted_lt u
    · intro x hx
      have hxu : x ∈ u := (Finset.mem_sort _).mp hx
      exact Finset.mem_range.mp (Finset.mem_of_mem_erase (huG hxu))
  · intro hbc
    have hbu : b ∈ u := (Finset.mem_sort _).mp hbc
    exact absurd (huG hbu) (Finset.not_mem_erase b _)
  · exact (Finset.mem_sort _).mpr (hsu (Finset.mem_singleton_self i))

theorem filter_eq_singleton_of_nodup {α : Type} {b : α} {p : α → Bool} :
    ∀ {l : List α}, l.Nodup → b ∈ l → (∀ x ∈ l, p x = true ↔ x = b) →
      l.filter p = [b] := by
  intro l
  induction l with
  | nil => intro _ hb _; cases hb
  | cons a t ih =>
    intro hnd hb hp
    obtain ⟨hat, hndt⟩ := List.nodup_cons.mp hnd
    rcases List.mem_cons.mp hb with rfl | hbt
    · rw [List.filter_cons_of_pos ((hp b (List.mem_cons_self _ _)).mpr rfl)]
      have ht : t.filter p = [] := by
        rw [List.filter_eq_nil]
        intro x hx hpx
        have hxa := (hp x (List.mem_cons_of_mem _ hx)).mp hpx
        exact hat (hxa ▸ hx)
      rw [ht]
    · have ha : ¬ p a = true := by
        intro hpa
        have h := (hp a (List.mem_cons_self _ _)).mp hpa
        exact hat (h ▸ hbt)
      rw [List.filter_cons_of_neg (by simpa using ha)]
      exact ih hndt hbt (fun x hx => hp x (List.mem_cons_of_mem _ hx))

/-- With duplicate-free keys, `find?` on a key returns its unique
entry. -/
theorem find?_key {v : ℤ} : ∀ {t : List (ℤ × ℕ × Finset ℕ)}
    {e : ℤ × ℕ × Finset ℕ},
    (t.map (fun e => e.1)).Nodup → e ∈ t → e.1 = v →
      t.find? (fun e' => e'.1 = v) = some e := by
  intro t
  induction t with
  | nil => intro e _ he _; cases he
  | cons a t' ih =>
    intro e hnd he hev
    rw [List.map_cons] at hnd
    obtain ⟨ha1, hndt⟩ := List.nodup_cons.mp hnd
    rcases List.mem_cons.mp he with rfl | het
    · rw [List.find?_cons_of_pos _ (by simp [hev])]
    · have hav : ¬ a.1 = v := by
        intro h
        apply ha1
        refine List.mem_map.mpr ⟨e, het, ?_⟩
        rw [hev, h]
      rw [List.find?_cons_of_neg _ (by simpa using hav)]
      exact ih hndt het hev

/-- Forward computation of a successful reconstruction from the scan's
pick. -/
theorem reconstructAux_some_eq {combos : List (List ℕ)}
    {pts : List (ℤ × ℤ)} {m : ℕ} {v : ℤ}
    (hT : buildTally pts combos ≠ [])
    (hpk : (pickBest (buildTally pts combos)).1 = some v) :
    reconstructAux combos pts m = some (v,
      ((List.range m).filter (fun i =>
        ¬ i ∈ ((((buildTally pts combos).find? (fun e => e.1 = v)).map
          (fun e => e.2.2)).getD ∅))).map (fun i => pts.getD i (0, 0))) := by
  simp only [reconstructAux]
  rw [if_neg (by simp [hT]), hpk]

/-- C2 (amended to `m ≥ 2k + 1` and no unperturbed point at `x = 0`):
with `m` points of pairwise distinct `x` values, all but the one at
index `b` lying exactly on the integer-coefficient polynomial with
coefficient list `c` (`|c| = k ≥ 2`) and having nonzero `x`, and the
point at `b` lying off the polynomial, the reconstruction over the
generator's enumerated `k`-subsets returns the polynomial's constant
term as the winning secret and exactly the perturbed point as the
outlier list. -/
theorem robust_reconstruction (pts : List (ℤ × ℤ)) (c : List ℤ) (k b : ℕ)
    (combos : List (List ℕ)) (hk : 2 ≤ k) (hclen : c.length = k)
    (hm : 2 * k + 1 ≤ pts.length)
    (hcombos : RunsTo (advance pts.length) (List.range k) combos)
    (hxnd : (pts.map Prod.fst).Nodup) (hb : b < pts.length)
    (hcurve : ∀ i ∈ List.range pts.length, i ≠ b →
      (pts.getD i (0, 0)).2 = evalPoly c (pts.getD i (0, 0)).1)
    (hx0 : ∀ i ∈ List.range pts.length, i ≠ b → (pts.getD i (0, 0)).1 ≠ 0)
    (hbad : (pts.getD b (0, 0)).2 ≠ evalPoly c (pts.getD b (0, 0)).1) :
    reconstructAux combos pts pts.length =
      some (evalPoly c 0, [pts.getD b (0, 0)]) := by
  have hkm : k ≤ pts.length := by omega
  have hcombos' : combos = combosList pts.length k :=
    runsTo_unique hcombos (runsTo_combosList pts.length k hkm)
  subst hcombos'
  have hcurve' : ∀ i, i < pts.length → i ≠ b →
      (pts.getD i (0, 0)).2 = evalPoly c (pts.getD i (0, 0)).1 :=
    fun i hi => hcurve i (List.mem_range.mpr hi)
  have hx0' : ∀ i, i < pts.length → i ≠ b → (pts.getD i (0, 0)).1 ≠ 0 :=
    fun i hi => hx0 i (List.mem_range.mpr hi)
  have hvalid := combosList_valid pts.length k
  have hgood : ∀ combo ∈ combosList pts.length k, b ∉ combo →
      subsetValue pts combo = some (evalPoly c 0) := by
    intro combo hcm hbc
    obtain ⟨hl, hpw, hbd⟩ := hvalid combo hcm
    exact subsetValue_good (by omega) hclen hxnd hcurve' hl
      (hpw.imp Nat.ne_of_lt) hbd hbc
  have hbadv : ∀ combo ∈ combosList pts.length k, b ∈ combo →
      subsetValue pts combo ≠ some (evalPoly c 0) := by
    intro combo hcm hbc
    obtain ⟨hl, hpw, hbd⟩ := hvalid combo hcm
    exact subsetValue_bad hclen hxnd hcurve' hx0' hbad hl
      (hpw.imp Nat.ne_of_lt) hbd hbc
  have hA := combosList_countP_avoid pts.length k b hb
  have hB := combosList_countP_mem pts.length k b hb (by omega)
  have hABlt : Nat.choose pts.length k - Nat.choose (pts.length - 1) k <
      Nat.choose (pts.length - 1) k := by
    obtain ⟨m', hm'⟩ : ∃ m', pts.length = m' + 1 := ⟨pts.length - 1, by omega⟩
    obtain ⟨k', hk'⟩ : ∃ k', k = k' + 1 := ⟨k - 1, by omega⟩
    rw [hm', hk']
    simp only [Nat.add_sub_cancel]
    have hp := Nat.choose_succ_succ m' k'
    have hlt : Nat.choose m' k' < Nat.choose m' (k' + 1) := by
      have h := choose_pred_lt (n := m') (k := k' + 1) (by omega) (by omega)
      simpa using h
    simp only [Nat.succ_eq_add_one] at hp hlt
    omega
  have hcount_s : Nat.choose (pts.length - 1) k ≤
      (combosList pts.length k).countP
        (fun u => decide (subsetValue pts u = some (evalPoly c 0))) := by
    rw [← hA]
    refine List.countP_mono_left ?_
    intro u hu hdu
    simp only [decide_eq_true_eq] at hdu ⊢
    exact hgood u hu hdu
  have hcount_w : ∀ w : ℤ, w ≠ evalPoly c 0 →
      (combosList pts.length k).countP
        (fun u => decide (subsetValue pts u = some w)) ≤
      Nat.choose pts.length k - Nat.choose (pts.length - 1) k := by
    intro w hw
    rw [← hB]
    refine List.countP_mono_left ?_
    intro u hu hdu
    simp only [decide_eq_true_eq] at hdu ⊢
    by_contra hbu
    exact hw (Option.some.inj ((hgood u hu hbu).symm.trans hdu)).symm
  obtain ⟨hnd, hcnt, hmemM, hkeys, hord⟩ :=
    buildTally_spec pts (combosList pts.length k)
  have hpos : 0 < (combosList pts.length k).countP
      (fun u => decide (subsetValue pts u = some (evalPoly c 0))) :=
    lt_of_lt_of_le (Nat.choose_pos (by omega)) hcount_s
  have hex_s : ∃ u ∈ combosList pts.length k,
      subsetValue pts u = some (evalPoly c 0) := by
    obtain ⟨u, hu, hdu⟩ := List.countP_pos.mp hpos
    simp only [decide_eq_true_eq] at hdu
    exact ⟨u, hu, hdu⟩
  obtain ⟨es, hes, heskey⟩ := (hkeys (evalPoly c 0)).mpr hex_s
  have hescount : es.2.1 = (combosList pts.length k).countP
      (fun u => decide (subsetValue pts u = some (evalPoly c 0))) := by
    rw [hcnt es hes, heskey]
  have hmax : ∀ e' ∈ buildTally pts (combosList pts.length k),
      e'.1 ≠ es.1 → e'.2.1 < es.2.1 := by
    intro e' he' hne
    rw [heskey] at hne
    have h1 : e'.2.1 ≤
        Nat.choose pts.length k - Nat.choose (pts.length - 1) k := by
      rw [hcnt e' he']
      exact hcount_w e'.1 hne
    have h2 : Nat.choose (pts.length - 1) k ≤ es.2.1 := by
      rw [hescount]
      exact hcount_s
    exact lt_of_le_of_lt h1 (lt_of_lt_of_le hABlt h2)
  have hpk : (pickBest (buildTally pts (combosList pts.length k))).1 =
      some (evalPoly c 0) := by
    rw [pickBest_strict hes hmax, heskey]
  have hTne : buildTally pts (combosList pts.length k) ≠ [] := by
    intro h
    rw [h] at hes
    cases hes
  have hMiff : ∀ i : ℕ, i ∈ es.2.2 ↔ (i < pts.length ∧ i ≠ b) := by
    intro i
    rw [hmemM es hes i, heskey]
    constructor
    · rintro ⟨u, hu, hval, hiu⟩
      have hbu : b ∉ u := by
        intro hbu
        exact hbadv u hu hbu hval
      obtain ⟨hl, hpw, hbd⟩ := hvalid u hu
      exact ⟨hbd i hiu, fun h => hbu (h ▸ hiu)⟩
    · rintro ⟨hi, hib⟩
      obtain ⟨u, hu, hbu, hiu⟩ :=
        exists_good_combo (k := k) (by omega) (by omega) hb hi hib
      exact ⟨u, hu, hgood u hu hbu, hiu⟩
  have hfind : (buildTally pts (combosList pts.length k)).find?
      (fun e => e.1 = evalPoly c 0) = some es :=
    find?_key hnd hes heskey
  have hfilter : (List.range pts.length).filter
      (fun i => ¬ i ∈ es.2.2) = [b] := by
    refine filter_eq_singleton_of_nodup (List.nodup_range _)
      (List.mem_range.mpr hb) ?_
    intro x hx
    simp only [decide_eq_true_eq]
    rw [hMiff x]
    have hxm : x < pts.length := List.mem_range.mp hx
    constructor
    · intro h
      by_contra hxb
      exact h ⟨hxm, hxb⟩
    · rintro rfl
      intro h
      exact h.2 rfl
  rw [reconstructAux_some_eq hTne hpk, hfind]
  simp only [Option.map_some', Option.getD_some]
  rw [hfilter]
  rfl

/-- Counterexample to C2 as stated: `k = 2` and `m = 3 = k + 1` points
`(1,1), (2,2), (0,5)`, where the first two lie on the polynomial `x`
(coefficient list `[0,1]`, constant term `0`) and the third is perturbed
off it.  The two subsets through the perturbed point both interpolate to
`5` and outvote the single consistent subset, so the reconstruction
reports the winning secret `5 ≠ 0` and an empty outlier list instead of
the perturbed point. -/
theorem robust_counterexample :
    RunsTo (advance 3) (List.range 2) [[0, 1], [0, 2], [1, 2]] ∧
    (([(1, 1), (2, 2), (0, 5)] : List (ℤ × ℤ)).getD 0 (0, 0)).2 =
      evalPoly [0, 1]
        (([(1, 1), (2, 2), (0, 5)] : List (ℤ × ℤ)).getD 0 (0, 0)).1 ∧
    (([(1, 1), (2, 2), (0, 5)] : List (ℤ × ℤ)).getD 1 (0, 0)).2 =
      evalPoly [0, 1]
        (([(1, 1), (2, 2), (0, 5)] : List (ℤ × ℤ)).getD 1 (0, 0)).1 ∧
    (([(1, 1), (2, 2), (0, 5)] : List (ℤ × ℤ)).getD 2 (0, 0)).2 ≠
      evalPoly [0, 1]
        (([(1, 1), (2, 2), (0, 5)] : List (ℤ × ℤ)).getD 2 (0, 0)).1 ∧
    reconstructAux [[0, 1], [0, 2], [1, 2]] [(1, 1), (2, 2), (0, 5)] 3 =
      some (5, []) ∧ (5 : ℤ) ≠ evalPoly [0, 1] 0 := by
  refine ⟨?_, by decide, by decide, by decide, by decide, by decide⟩
  exact RunsTo.step _ _ _ (by decide)
    (RunsTo.step _ _ _ (by decide) (RunsTo.last _ (by decide)))

/-- Witness for C2 (amended) at `k = 2`: five points on `y = x` with the
fifth perturbed to `(5, 17)`; the winner is `0` with the perturbed point
as the only outlier. -/
theorem robust_reconstruction_witness :
    reconstructAux (combosList 5 2) [(1, 1), (2, 2), (3, 3), (4, 4), (5, 17)]
      5 = some (0, [(5, 17)]) := by
  have h := robust_reconstruction [(1, 1), (2, 2), (3, 3), (4, 4), (5, 17)]
    [0, 1] 2 4 (combosList 5 2) (by decide) (by decide) (by decide)
    (runsTo_combosList 5 2 (by decide)) (by decide) (by decide)
    (by decide) (by decide) (by decide)
  exact h.trans (by decide)
